import Mathlib

/-!
Verification of the webpage-categorizer repository.

File contents are modelled byte-faithfully as `List Char`; a Python
"line" (as produced by `readlines`) is also a `List Char`, keeping its
terminator.  The two source variants are embedded:

* `src/webpagecategorizer/categorizer.py` (the configurable, click-based
  variant): `load_category_patterns`, `categorize_line`,
  `get_links_from_file`, `LinkCopyAction.perform`,
  `RemoveLinksFromFileAction.perform`, `LinkActions` grouping and
  `perform_actions`, `categorize_websites`,
  `remove_categorized_lines_from_inputs`.
* `src/categorizer.py` (the hardcoded interactive variant):
  `CATEGORY_PATTERNS`, `categorize_line` (same body, hardcoded map),
  `process_files`.

Python's `re.search(pattern, line, re.IGNORECASE)` is treated as an
external collaborator: the embedding is parametric in a match oracle
`search : String → Line → Bool`.  For concrete evaluations the oracle
`litSearchIC` is used, which is the exact semantics of `re.search` with
`re.IGNORECASE` for metacharacter-free (literal) patterns:
case-insensitive substring search.
-/

namespace Categorizer

/-- A sequence of bytes/characters; used both for whole file contents and
for single lines (which keep their terminator, as Python `readlines` does). -/
abbrev Line := List Char

/-- The whitespace characters stripped by Python `str.strip()` (ASCII part,
which covers every character appearing in this development). -/
def isSpaceCh (c : Char) : Bool :=
  c == ' ' || c == '\t' || c == '\n' || c == '\r' || c == '\x0b' || c == '\x0c'

/-- Python `str.strip()`: drop whitespace from both ends. -/
def pstrip (l : Line) : Line :=
  ((l.dropWhile isSpaceCh).reverse.dropWhile isSpaceCh).reverse

/-- ASCII lower-casing of one character (models `re.IGNORECASE` folding for
the ASCII patterns and lines of this repository). -/
def lowerCh (c : Char) : Char :=
  if 'A' ≤ c ∧ c ≤ 'Z' then Char.ofNat (c.toNat + 32) else c

/-- `prefB pat s` is true when `pat` is a prefix of `s`. -/
def prefB : List Char → List Char → Bool
  | [], _ => true
  | _ :: _, [] => false
  | a :: as, b :: bs => a == b && prefB as bs

/-- `containsSub pat s` is true when `pat` occurs contiguously inside `s`. -/
def containsSub (pat : List Char) : List Char → Bool
  | [] => pat.isEmpty
  | c :: rest => prefB pat (c :: rest) || containsSub pat rest

/-- Models `re.search(pattern, line, re.IGNORECASE) is not None` for
patterns that contain no regex metacharacters: case-insensitive substring
search anywhere within the (untrimmed) line. -/
def litSearchIC (pat : String) (line : Line) : Bool :=
  containsSub (pat.toList.map lowerCh) (line.map lowerCh)

/-- Splitter worker for `readlines`: `acc` holds the current (reversed)
partial line. -/
def readlinesAux (acc : List Char) : List Char → List Line
  | [] => if acc = [] then [] else [acc.reverse]
  | c :: rest =>
    if c = '\n' then (c :: acc).reverse :: readlinesAux [] rest
    else readlinesAux (c :: acc) rest

/-- Python `f.readlines()`: split a file's content into lines, each keeping
its `'\n'` terminator; a trailing fragment without terminator is a line. -/
def readlines (content : List Char) : List Line :=
  readlinesAux [] content

/-- Python `f.writelines(ls)` / repeated `f.write`: concatenation. -/
def joinL (ls : List Line) : List Char := ls.flatten

/-- A line as produced by `readlines` from newline-terminated content:
ends in `'\n'` and contains no other newline. -/
def isNL (l : Line) : Prop := ∃ m, l = m ++ ['\n'] ∧ '\n' ∉ m

/-- A file content that is empty or ends with a newline. -/
def terminated (c : List Char) : Prop := c = [] ∨ ∃ m, c = m ++ ['\n']

/-! ### Classifier (`categorize_line` in both variants) -/

/-- `src/webpagecategorizer/categorizer.py`, `categorize_line(line,
patterns_by_category)`: iterate categories in mapping order, patterns in
list order, return the first category with a matching pattern.  The match
oracle `search` models `re.search(·, ·, re.IGNORECASE)`; the line is
passed untrimmed.  (`src/categorizer.py` has the same body with the
hardcoded `CATEGORY_PATTERNS` map.) -/
def categorize_line (search : String → Line → Bool) (line : Line) :
    List (String × List String) → Option String
  | [] => none
  | (category, patterns) :: rest =>
    if patterns.any (fun p => search p line) then some category
    else categorize_line search line rest

/-- `src/categorizer.py`, the hardcoded `CATEGORY_PATTERNS` table. -/
def CATEGORY_PATTERNS : List (String × List String) :=
  [ ("news", ["news", "nytimes\\.com", "bbc\\.co\\.uk"]),
    ("music", ["spotify\\.com", "soundcloud\\.com"]),
    ("learn", ["khanacademy\\.org", "coursera\\.org", "edx\\.org"]) ]

/-- Written from the spec's words (§4.1): "name of first category (in map
iteration order) having any pattern (in list order) that matches anywhere
within `line`; otherwise none". -/
def classifySpec (search : String → Line → Bool) (line : Line)
    (pats : List (String × List String)) : Option String :=
  (pats.find? (fun p => p.2.any (fun pat => search pat line))).map Prod.fst

/-! ### Configuration loading (`load_category_patterns`) -/

/-- JSON values, as produced by Python `json.load`. -/
inductive Json where
  | null : Json
  | bool (b : Bool) : Json
  | num (n : Int) : Json
  | str (s : String) : Json
  | arr (xs : List Json) : Json
  | obj (kvs : List (String × Json)) : Json

/-- `isinstance(patterns, list) and all(isinstance(p, str) for p in patterns)`:
extract the list of strings, or `none` when the value has the wrong shape. -/
def strListOf : Json → Option (List String)
  | .arr xs => goList xs
  | _ => none
where
  goList : List Json → Option (List String)
    | [] => some []
    | .str s :: rest => (goList rest).map (s :: ·)
    | _ => none

/-- `src/webpagecategorizer/categorizer.py`, `load_category_patterns`:
validate that the JSON value is an object mapping category names to lists
of strings, raising `ValueError` (modelled as `.error`) on the first
violation; the patterns themselves are only shape-checked, never compiled. -/
def load_category_patterns (j : Json) : Except String (List (String × List String)) :=
  match j with
  | .obj kvs => goObj kvs
  | _ => .error "Category file must be a JSON object with category names as keys and list of regex patterns as values."
where
  goObj : List (String × Json) → Except String (List (String × List String))
    | [] => .ok []
    | (key, v) :: rest =>
      match strListOf v with
      | none => .error ("Each category must map to a list of regex strings. Problem in category: " ++ key)
      | some patterns =>
        match goObj rest with
        | .error e => .error e
        | .ok tail => .ok ((key, patterns) :: tail)

/-! ### Filesystem model -/

/-- The filesystem as the engine sees it: the input directory's `*.txt`
files (in glob order) and the output directory's `*.txt` files, the latter
keyed by category name (the file `<category>.txt`).  `outputDirCreated`
records whether `output_path.mkdir(...)` has run. -/
structure FS where
  inputs : List (String × List Char)
  outputs : List (String × List Char)
  outputDirCreated : Bool
deriving DecidableEq

/-- First-match association-list lookup (Python `dict` access). -/
def lookupA {α : Type} : List (String × α) → String → Option α
  | [], _ => none
  | (k, v) :: rest, c => if k = c then some v else lookupA rest c

/-- Association-list update: overwrite the first binding of the key, or
append a new binding (Python `dict` assignment / file creation). -/
def setAssoc {α : Type} : List (String × α) → String → α → List (String × α)
  | [], c, v => [(c, v)]
  | (k, w) :: rest, c, v =>
    if k = c then (k, v) :: rest else (k, w) :: setAssoc rest c v

/-- Content of the destination file for a category; a missing file reads
as empty (missing and empty destination files are observationally equal
everywhere in the engine). -/
def getOutput (fs : FS) (category : String) : List Char :=
  (lookupA fs.outputs category).getD []

/-- Replace the destination file for a category. -/
def setOutput (fs : FS) (category : String) (v : List Char) : FS :=
  { fs with outputs := setAssoc fs.outputs category v }

/-- Content of the `i`-th input file (in glob order). -/
def getInput (fs : FS) (i : Nat) : List Char :=
  ((fs.inputs.get? i).map Prod.snd).getD []

/-- Rewrite one element of a list in place. -/
def updateAt {α : Type} : Nat → (α → α) → List α → List α
  | _, _, [] => []
  | 0, g, x :: xs => g x :: xs
  | n + 1, g, x :: xs => x :: updateAt n g xs

/-- Rewrite the `i`-th input file's content with `g` (which receives the
current content, as the Python actions re-read the file when performing). -/
def setInput (fs : FS) (i : Nat) (g : List Char → List Char) : FS :=
  { fs with inputs := updateAt i (fun p => (p.1, g p.2)) fs.inputs }

/-! ### Destination line-set cache (`LINKS_BY_CATEGORY`, `get_links_from_file`) -/

/-- The process-wide `LINKS_BY_CATEGORY: Dict[str, Set[str]]` cache; a
Python set of strings is modelled as a list queried only by membership. -/
abbrev Cache := List (String × List Line)

/-- `src/webpagecategorizer/categorizer.py`, `get_links_from_file`: return
the cached line set for the category if present; otherwise, if the
destination file does not exist return the empty set *without caching it*,
else read the file's lines, cache and return them.  Returns the line set
together with the updated cache. -/
def get_links_from_file (cache : Cache) (fs : FS) (category : String) :
    List Line × Cache :=
  match lookupA cache category with
  | some s => (s, cache)
  | none =>
    match lookupA fs.outputs category with
    | none => ([], cache)
    | some content => (readlines content, (category, readlines content) :: cache)

/-! ### Actions -/

/-- `LinkCopyAction(category, src_file_name, line_number, link, target_file)`;
the target file is determined by the category (`output_path / f"{category}.txt"`),
so it is not stored separately. -/
structure LinkCopyAction where
  category : String
  srcIdx : Nat
  lineNumber : Nat
  link : Line
deriving DecidableEq

/-- `RemoveLinksFromFileAction(category, category_file, src_file_name,
line_number, links)`.  `category` is the input file's basename with
`".txt"` removed; the `category_file` field (the stale last-iterated
output file, used only by `describe`) is omitted; `lineNumber` receives
the stale final loop index, and is never read by `perform`. -/
structure RemoveLinksFromFileAction where
  category : String
  srcIdx : Nat
  lineNumber : Nat
  links : List Line
deriving DecidableEq

/-- `LinkCopyAction.perform`: `open(target_file, 'a').write(self.link)` —
append the link verbatim to the destination file (creating it if absent). -/
def copyPerform (a : LinkCopyAction) (fs : FS) : FS :=
  setOutput fs a.category (getOutput fs a.category ++ a.link)

/-- The `new_lines` loop of `RemoveLinksFromFileAction.perform`: keep
exactly the lines whose stripped content is not in `links` (every
occurrence whose stripped content is in `links` is dropped). -/
def keepLines (links : List Line) : List Line → List Line
  | [] => []
  | l :: rest =>
    if pstrip l ∈ links then keepLines links rest
    else l :: keepLines links rest

/-- `RemoveLinksFromFileAction.perform` on one file's content: re-read the
lines, drop every line whose stripped content is in `links`, write back. -/
def remove_links_perform (links : List Line) (content : List Char) : List Char :=
  joinL (keepLines links (readlines content))

/-- `RemoveLinksFromFileAction.perform` against the filesystem. -/
def removePerform (a : RemoveLinksFromFileAction) (fs : FS) : FS :=
  setInput fs a.srcIdx (remove_links_perform a.links)

/-- `LinkActions._get_actions_by_category`: `d.setdefault(a.category, []).append(a)`
— append the action to its category's group, creating the group at the end
on first sight of the category. -/
def addToGroups {α : Type} (key : α → String)
    (gs : List (String × List α)) (a : α) : List (String × List α) :=
  match gs with
  | [] => [(key a, [a])]
  | (c, as) :: rest =>
    if c = key a then (c, as ++ [a]) :: rest else (c, as) :: addToGroups key rest a

/-- Group an action list by category, preserving first-appearance order of
categories and insertion order within each category. -/
def groupByCategory {α : Type} (key : α → String) (as : List α) :
    List (String × List α) :=
  as.foldl (addToGroups key) []

/-- The order in which `LinkActions.perform_actions` visits actions:
category groups in first-appearance order, insertion order inside each. -/
def flattenGroups {α : Type} (key : α → String) (as : List α) : List α :=
  ((groupByCategory key as).map Prod.snd).flatten

/-- `LinkActions.perform_actions` for copy actions. -/
def performCopies (as : List LinkCopyAction) (fs : FS) : FS :=
  (flattenGroups LinkCopyAction.category as).foldl (fun fs a => copyPerform a fs) fs

/-- `LinkActions.perform_actions` for removal actions. -/
def performRemovals (as : List RemoveLinksFromFileAction) (fs : FS) : FS :=
  (flattenGroups RemoveLinksFromFileAction.category as).foldl
    (fun fs a => removePerform a fs) fs

/-! ### Phase 1: classify and plan copy actions (`categorize_websites`, step 1) -/

/-- The per-line loop of step 1 of `categorize_websites`, for one input
file: classify each line; for a classified line fetch the destination's
cached line set and, when the line is not in it, record a copy action.
Returns the final cache and the copy actions in creation order.  (The
cache is *not* updated when an action is recorded: the source only updates
`LINKS_BY_CATEGORY` inside `get_links_from_file`.) -/
def planLines (pats : List (String × List String)) (search : String → Line → Bool)
    (fs : FS) (srcIdx : Nat) :
    Nat → List Line → Cache → Cache × List LinkCopyAction
  | _, [], cache => (cache, [])
  | n, l :: rest, cache =>
    match categorize_line search l pats with
    | none => planLines pats search fs srcIdx (n + 1) rest cache
    | some c =>
      let r := get_links_from_file cache fs c
      let rec' := planLines pats search fs srcIdx (n + 1) rest r.2
      if l ∈ r.1 then rec'
      else (rec'.1, ⟨c, srcIdx, n, l⟩ :: rec'.2)

/-- The per-file loop of step 1 of `categorize_websites` (line numbers are
1-based, `enumerate(lines, 1)`). -/
def planFiles (pats : List (String × List String)) (search : String → Line → Bool)
    (fs : FS) : Nat → List (String × List Char) → Cache → List LinkCopyAction
  | _, [], _ => []
  | i, f :: rest, cache =>
    let r := planLines pats search fs i 1 (readlines f.2) cache
    r.2 ++ planFiles pats search fs (i + 1) rest r.1

/-- All copy actions proposed by step 1, starting from the empty
per-process cache. -/
def planCopies (pats : List (String × List String)) (search : String → Line → Bool)
    (fs : FS) : List LinkCopyAction :=
  planFiles pats search fs 0 fs.inputs []

/-! ### Phase 2: removal (`remove_categorized_lines_from_inputs`) -/

/-- Step 1 of `remove_categorized_lines_from_inputs`: the set of stripped
lines of every file in the output directory. -/
def categorizedLines (fs : FS) : List Line :=
  (fs.outputs.map (fun g => (readlines g.2).map pstrip)).flatten

/-- `os.path.basename(file).replace(".txt", "")`. -/
def stripTxtName (s : String) : String := s.replace ".txt" ""

/-- The per-file links set of `remove_categorized_lines_from_inputs`:
stripped lines of the file that occur in `categorized_lines`. -/
def removalLinks (categorized : List Line) (content : List Char) : List Line :=
  ((readlines content).map pstrip).filter (fun s => s ∈ categorized)

/-- Step 2 of `remove_categorized_lines_from_inputs`: one
`RemoveLinksFromFileAction` per input file with a nonempty links set.
The recorded line number is the stale final `enumerate(lines)` index. -/
def planRemovalsGo (fs : FS) :
    Nat → List (String × List Char) → List RemoveLinksFromFileAction
  | _, [] => []
  | i, f :: rest =>
    let links := removalLinks (categorizedLines fs) f.2
    if links = [] then planRemovalsGo fs (i + 1) rest
    else ⟨stripTxtName f.1, i, (readlines f.2).length - 1, links⟩ :: planRemovalsGo fs (i + 1) rest

/-- All removal actions proposed by `remove_categorized_lines_from_inputs`. -/
def planRemovals (fs : FS) : List RemoveLinksFromFileAction :=
  planRemovalsGo fs 0 fs.inputs

/-! ### The full run (`categorize_websites`) -/

/-- Outcome of one invocation: final filesystem, the raised error (if
loading failed), and how many copy/removal actions were proposed. -/
structure RunOutcome where
  fs : FS
  err : Option String
  copyCount : Nat
  removeCount : Nat
deriving DecidableEq

/-- `categorize_websites` after configuration loading: step 1 plans copy
actions; when any exist and `yes` is set or the collaborator confirms,
they are performed; when `remove_moved_lines` is set,
`remove_categorized_lines_from_inputs` plans removal actions over the
post-copy filesystem and, when any exist and confirmed, performs them.
`confirmCopy`/`confirmRemove` are the collaborator's answers to the two
`click.confirm` prompts. -/
def runSteps (pats : List (String × List String)) (search : String → Line → Bool)
    (yes removeFlag confirmCopy confirmRemove : Bool) (fs : FS) : RunOutcome :=
  let copies := planCopies pats search fs
  let fs1 := if copies.length ≠ 0 ∧ (yes = true ∨ confirmCopy = true)
    then performCopies copies fs else fs
  let removes := if removeFlag then planRemovals fs1 else []
  let fs2 := if removeFlag = true ∧ removes.length ≠ 0 ∧ (yes = true ∨ confirmRemove = true)
    then performRemovals removes fs1 else fs1
  ⟨fs2, none, copies.length, removes.length⟩

/-- One engine run with an already-loaded category mapping:
`output_path.mkdir(parents=True, exist_ok=True)`, then the two phases. -/
def runEngine (pats : List (String × List String)) (search : String → Line → Bool)
    (yes removeFlag confirmCopy confirmRemove : Bool) (fs : FS) : RunOutcome :=
  runSteps pats search yes removeFlag confirmCopy confirmRemove
    { fs with outputDirCreated := true }

/-- `categorize_websites` from the raw JSON configuration: the output
directory is created first (the source calls `mkdir` before
`load_category_patterns`); a load error aborts the run there. -/
def categorize_websites (catJson : Json) (search : String → Line → Bool)
    (yes removeFlag confirmCopy confirmRemove : Bool) (fs : FS) : RunOutcome :=
  let fs := { fs with outputDirCreated := true }
  match load_category_patterns catJson with
  | .error e => ⟨fs, some e, 0, 0⟩
  | .ok pats => runSteps pats search yes removeFlag confirmCopy confirmRemove fs

/-! ### The hardcoded interactive variant (`src/categorizer.py`, `process_files`) -/

/-- The per-line loop of `process_files` for one file: classify each line
(0-based loop position `n`; the printed number is `n + 1`), ask the
per-line confirmation oracle `dec`; an accepted line is appended to its
category's file and dropped from `new_lines`, a declined or unclassified
line is kept.  Returns the kept lines and the updated filesystem. -/
def processLines (search : String → Line → Bool) (dec : Nat → Bool) :
    Nat → List Line → FS → List Line × FS
  | _, [], fs => ([], fs)
  | n, l :: rest, fs =>
    match categorize_line search l CATEGORY_PATTERNS with
    | some c =>
      if dec n then
        let fs' := setOutput fs c (getOutput fs c ++ l)
        processLines search dec (n + 1) rest fs'
      else
        let r := processLines search dec (n + 1) rest fs
        (l :: r.1, r.2)
    | none =>
      let r := processLines search dec (n + 1) rest fs
      (l :: r.1, r.2)

/-- The per-file loop of `process_files`: process the lines, then
overwrite the source file with the kept lines (one rewrite per file). -/
def processFilesGo (search : String → Line → Bool) (dec : Nat → Nat → Bool) :
    Nat → List (String × List Char) → FS → FS
  | _, [], fs => fs
  | i, f :: rest, fs =>
    let r := processLines search (dec i) 0 (readlines f.2) fs
    let fs' := setInput r.2 i (fun _ => joinL r.1)
    processFilesGo search dec (i + 1) rest fs'

/-- `src/categorizer.py`, `process_files(input_dir, output_dir)`: create
the output directory, then process every input file; `dec i n` is the
user's `input("Confirm move? (Y/N): ")` answer for line `n` of file `i`. -/
def process_files (search : String → Line → Bool) (dec : Nat → Nat → Bool)
    (fs : FS) : FS :=
  processFilesGo search dec 0 fs.inputs { fs with outputDirCreated := true }

/-! ### Fallible perform (I/O errors during the apply phase) -/

/-- `LinkActions.perform_actions` under an environment where the `open`
inside an action's `perform` may raise `FileNotFoundError` (the path
disappeared between scan and write): `fails a` tells whether `a`'s open
raises.  The source has no `try`/`except`, so the first raise propagates
and every remaining action is abandoned; effects of earlier actions
persist. -/
def performListF {α : Type} (app : α → FS → FS) (fails : α → Bool) :
    List α → FS → FS × Option String
  | [], fs => (fs, none)
  | a :: rest, fs =>
    if fails a then (fs, some "FileNotFoundError")
    else performListF app fails rest (app a fs)

/-- `perform_actions` with fallible opens: visits actions in grouped
order, aborting the whole batch at the first raise. -/
def perform_actions_fallible {α : Type} (key : α → String) (app : α → FS → FS)
    (fails : α → Bool) (as : List α) (fs : FS) : FS × Option String :=
  performListF app fails (flattenGroups key as) fs

/-! ### Lemmas about `readlines`, `joinL`, `pstrip` -/

theorem readlines_nil : readlines [] = [] := rfl

theorem readlinesAux_append_m (m : List Char) : ∀ (acc ys : List Char),
    readlinesAux acc ((m ++ ['\n']) ++ ys)
      = readlinesAux acc (m ++ ['\n']) ++ readlinesAux [] ys := by
  induction m with
  | nil => intro acc ys; simp [readlinesAux]
  | cons a m ih =>
    intro acc ys
    by_cases h : a = '\n'
    · subst h
      simp only [List.cons_append, readlinesAux, List.append_eq]
      rw [ih]
      simp
    · simp only [List.cons_append, readlinesAux, if_neg h, List.append_eq]
      exact ih (a :: acc) ys

theorem readlines_append (c d : List Char) (h : terminated c) :
    readlines (c ++ d) = readlines c ++ readlines d := by
  rcases h with rfl | ⟨m, rfl⟩
  · simp [readlines, readlinesAux]
  · exact readlinesAux_append_m m [] d

theorem readlinesAux_single (m : List Char) : ∀ (acc : List Char), '\n' ∉ m →
    readlinesAux acc (m ++ ['\n']) = [acc.reverse ++ (m ++ ['\n'])] := by
  induction m with
  | nil => intro acc _; simp [readlinesAux]
  | cons a m ih =>
    intro acc h
    have ha : ¬ a = '\n' := fun e => h (by simp [e])
    have hm : '\n' ∉ m := fun e => h (by simp [e])
    simp only [List.cons_append, readlinesAux, if_neg ha, List.append_eq]
    rw [ih (a :: acc) hm]
    simp

theorem readlines_single (m : List Char) (h : '\n' ∉ m) :
    readlines (m ++ ['\n']) = [m ++ ['\n']] := by
  simpa using readlinesAux_single m [] h

theorem readlines_joinL (L : List Line) (h : ∀ l ∈ L, isNL l) :
    readlines (joinL L) = L := by
  induction L with
  | nil => simp [joinL, readlines, readlinesAux]
  | cons l rest ih =>
    obtain ⟨m, rfl, hm⟩ := h l (by simp)
    have hjoin : joinL ((m ++ ['\n']) :: rest) = (m ++ ['\n']) ++ joinL rest := by
      simp [joinL]
    rw [hjoin, readlines_append _ _ (Or.inr ⟨m, rfl⟩), readlines_single m hm,
      ih (fun x hx => h x (by simp [hx]))]
    rfl

theorem readlinesAux_wf : ∀ (c acc : List Char), '\n' ∉ acc →
    ((c = [] ∧ acc = []) ∨ ∃ m, c = m ++ ['\n']) →
    ∀ l ∈ readlinesAux acc c, isNL l := by
  intro c
  induction c with
  | nil =>
    intro acc hacc h l hl
    rcases h with ⟨_, rfl⟩ | ⟨m, hm⟩
    · simp [readlinesAux] at hl
    · exact absurd hm (by simp)
  | cons a c ih =>
    intro acc hacc h l hl
    have h' : ∃ m, a :: c = m ++ ['\n'] := by
      rcases h with ⟨h1, _⟩ | h'
      · exact absurd h1 (by simp)
      · exact h'
    obtain ⟨m, hm⟩ := h'
    by_cases ha : a = '\n'
    · subst ha
      simp only [readlinesAux, if_pos rfl] at hl
      rcases List.mem_cons.mp hl with rfl | hl'
      · exact ⟨acc.reverse, by simp, by simpa using hacc⟩
      · refine ih [] (by simp) ?_ l hl'
        match m, hm with
        | [], hm => left; exact ⟨by simpa using hm, rfl⟩
        | b :: m', hm =>
          right
          obtain ⟨-, h2⟩ : '\n' = b ∧ c = m' ++ ['\n'] := by simpa using hm
          exact ⟨m', h2⟩
    · simp only [readlinesAux, if_neg ha] at hl
      refine ih (a :: acc) ?_ ?_ l hl
      · intro hx
        rcases List.mem_cons.mp hx with e | e
        · exact ha e.symm
        · exact hacc e
      · match m, hm with
        | [], hm =>
          obtain ⟨h1, -⟩ : a = '\n' ∧ c = [] := by simpa using hm
          exact absurd h1 ha
        | b :: m', hm =>
          obtain ⟨-, h2⟩ : a = b ∧ c = m' ++ ['\n'] := by simpa using hm
          exact Or.inr ⟨m', h2⟩

theorem readlines_wf (c : List Char) (h : terminated c) :
    ∀ l ∈ readlines c, isNL l := by
  rcases h with rfl | ⟨m, rfl⟩
  · simp [readlines, readlinesAux]
  · exact readlinesAux_wf (m ++ ['\n']) [] (by simp) (Or.inr ⟨m, rfl⟩)

theorem readlines_append_joinL (c : List Char) (L : List Line)
    (hc : terminated c) (hL : ∀ l ∈ L, isNL l) :
    readlines (c ++ joinL L) = readlines c ++ L := by
  rw [readlines_append c _ hc, readlines_joinL L hL]

/-! ### Lemmas about the filesystem model -/

theorem mem_of_lookupA {α : Type} :
    ∀ (l : List (String × α)) (c : String) (v : α),
      lookupA l c = some v → (c, v) ∈ l := by
  intro l
  induction l with
  | nil => intro c v h; simp [lookupA] at h
  | cons p rest ih =>
    intro c v h
    cases p with
    | mk k w =>
      by_cases hk : k = c
      · have hv : w = v := by
          have h2 : some w = some v := by simpa [lookupA, hk] using h
          injection h2
        subst hk
        subst hv
        exact List.mem_cons_self _ _
      · exact List.mem_cons.mpr (Or.inr (ih c v (by simpa [lookupA, hk] using h)))

theorem lookupA_setAssoc_self {α : Type} :
    ∀ (l : List (String × α)) (c : String) (v : α),
      lookupA (setAssoc l c v) c = some v := by
  intro l
  induction l with
  | nil => intro c v; simp [setAssoc, lookupA]
  | cons p rest ih =>
    intro c v
    by_cases hk : p.1 = c
    · simp [setAssoc, lookupA, hk]
    · simp [setAssoc, lookupA, hk, ih]

theorem lookupA_setAssoc_ne {α : Type} :
    ∀ (l : List (String × α)) (c c' : String) (v : α), c ≠ c' →
      lookupA (setAssoc l c v) c' = lookupA l c' := by
  intro l
  induction l with
  | nil => intro c c' v h; simp [setAssoc, lookupA, h]
  | cons p rest ih =>
    intro c c' v h
    by_cases hk : p.1 = c
    · simp [setAssoc, lookupA, hk, h]
    · simp [setAssoc, lookupA, hk, ih _ _ _ h]

theorem getOutput_setOutput_self (fs : FS) (c : String) (v : List Char) :
    getOutput (setOutput fs c v) c = v := by
  simp [getOutput, setOutput, lookupA_setAssoc_self]

theorem getOutput_setOutput_ne (fs : FS) (c c' : String) (v : List Char)
    (h : c ≠ c') : getOutput (setOutput fs c v) c' = getOutput fs c' := by
  simp [getOutput, setOutput, lookupA_setAssoc_ne _ _ _ _ h]

theorem setOutput_inputs (fs : FS) (c : String) (v : List Char) :
    (setOutput fs c v).inputs = fs.inputs := rfl

theorem setInput_outputs (fs : FS) (i : Nat) (g : List Char → List Char) :
    (setInput fs i g).outputs = fs.outputs := rfl

theorem terminated_getOutput (fs : FS) (c : String)
    (hOut : ∀ g ∈ fs.outputs, terminated g.2) : terminated (getOutput fs c) := by
  unfold getOutput
  cases h : lookupA fs.outputs c with
  | none => exact Or.inl rfl
  | some content => exact hOut (c, content) (mem_of_lookupA _ _ _ h)

theorem pstrip_mem_categorizedLines (fs : FS) (c : String) (l : Line)
    (hl : l ∈ readlines (getOutput fs c)) : pstrip l ∈ categorizedLines fs := by
  unfold getOutput at hl
  cases h : lookupA fs.outputs c with
  | none => rw [h] at hl; simp [readlines, readlinesAux] at hl
  | some content =>
    rw [h] at hl
    simp only [Option.getD_some] at hl
    have hmem := mem_of_lookupA _ _ _ h
    unfold categorizedLines
    rw [List.mem_flatten]
    exact ⟨(readlines content).map pstrip, List.mem_map_of_mem _ hmem,
      List.mem_map_of_mem _ hl⟩

theorem categorizedLines_eq_of_outputs (fs fs' : FS)
    (h : fs.outputs = fs'.outputs) : categorizedLines fs = categorizedLines fs' := by
  unfold categorizedLines
  rw [h]

theorem updateAt_length {α : Type} :
    ∀ (n : Nat) (g : α → α) (l : List α), (updateAt n g l).length = l.length := by
  intro n
  induction n with
  | zero => intro g l; cases l <;> simp [updateAt]
  | succ n ih => intro g l; cases l <;> simp [updateAt, ih]

theorem updateAt_get?_self {α : Type} :
    ∀ (n : Nat) (g : α → α) (l : List α),
      (updateAt n g l).get? n = (l.get? n).map g := by
  intro n
  induction n with
  | zero => intro g l; cases l <;> simp [updateAt]
  | succ n ih =>
    intro g l
    cases l with
    | nil => simp [updateAt]
    | cons x xs => simpa [updateAt] using ih g xs

theorem updateAt_get?_ne {α : Type} :
    ∀ (n m : Nat) (g : α → α) (l : List α), n ≠ m →
      (updateAt n g l).get? m = l.get? m := by
  intro n
  induction n with
  | zero =>
    intro m g l h
    cases l with
    | nil => simp [updateAt]
    | cons x xs =>
      cases m with
      | zero => exact absurd rfl h
      | succ m => simp [updateAt]
  | succ n ih =>
    intro m g l h
    cases l with
    | nil => simp [updateAt]
    | cons x xs =>
      cases m with
      | zero => simp [updateAt]
      | succ m => simpa [updateAt] using ih m g xs (fun e => h (by rw [e]))

theorem getInput_setInput_self (fs : FS) (i : Nat) (g : List Char → List Char)
    (h : i < fs.inputs.length) :
    getInput (setInput fs i g) i = g (getInput fs i) := by
  unfold getInput setInput
  simp only [updateAt_get?_self]
  cases hx : fs.inputs.get? i with
  | none => exact absurd (List.get?_eq_none.mp hx) (by omega)
  | some p => simp

theorem getInput_setInput_ne (fs : FS) (i j : Nat) (g : List Char → List Char)
    (h : i ≠ j) : getInput (setInput fs i g) j = getInput fs j := by
  unfold getInput setInput
  simp only [updateAt_get?_ne i j _ _ h]

theorem getInput_eq_of_inputs (fs fs' : FS) (h : fs.inputs = fs'.inputs)
    (i : Nat) : getInput fs i = getInput fs' i := by
  unfold getInput
  rw [h]

theorem terminated_getInput (fs : FS) (i : Nat)
    (hIn : ∀ f ∈ fs.inputs, terminated f.2) : terminated (getInput fs i) := by
  unfold getInput
  cases hx : fs.inputs.get? i with
  | none => exact Or.inl rfl
  | some p => simpa using hIn p (List.get?_mem hx)

theorem getInput_of_ge (fs : FS) (i : Nat) (h : fs.inputs.length ≤ i) :
    getInput fs i = [] := by
  unfold getInput
  rw [List.get?_eq_none.mpr h]
  rfl

/-! ### Lemmas about action grouping (`_get_actions_by_category`) -/

/-- Actions with a given category key, in list order (the per-category
subsequence that `perform_actions` replays against one file). -/
def selectKey {α : Type} (key : α → String) (c : String) (as : List α) : List α :=
  as.filter (fun x => decide (key x = c))

/-- Well-formedness of a partial group list built by `addToGroups`:
distinct keys, and every member sits in its own key's group. -/
def groupsWF {α : Type} (key : α → String) (gs : List (String × List α)) : Prop :=
  (gs.map Prod.fst).Nodup ∧ ∀ p ∈ gs, ∀ x ∈ p.2, key x = p.1

theorem addToGroups_fst {α : Type} (key : α → String) :
    ∀ (gs : List (String × List α)) (a : α),
      (addToGroups key gs a).map Prod.fst =
        if key a ∈ gs.map Prod.fst then gs.map Prod.fst
        else gs.map Prod.fst ++ [key a] := by
  intro gs
  induction gs with
  | nil => intro a; simp [addToGroups]
  | cons p rest ih =>
    intro a
    by_cases hk : p.1 = key a
    · simp [addToGroups, hk]
    · have : ¬ key a = p.1 := fun e => hk e.symm
      simp only [addToGroups, if_neg hk, List.map_cons, ih a, List.mem_cons, this,
        false_or]
      by_cases hm : key a ∈ rest.map Prod.fst <;> simp [hm]

theorem addToGroups_WF {α : Type} (key : α → String) :
    ∀ (gs : List (String × List α)) (a : α), groupsWF key gs →
      groupsWF key (addToGroups key gs a) := by
  intro gs
  induction gs with
  | nil =>
    intro a _
    constructor
    · simp [addToGroups]
    · intro p hp x hx
      simp only [addToGroups, List.mem_singleton] at hp
      subst hp
      have hxa : x = a := by simpa using hx
      rw [hxa]
  | cons q rest ih =>
    intro a h
    by_cases hk : q.1 = key a
    · constructor
      · simpa [addToGroups, hk] using h.1
      · intro p hp x hx
        simp only [addToGroups, if_pos hk, List.mem_cons] at hp
        rcases hp with rfl | hp
        · rcases List.mem_append.mp hx with hx' | hx'
          · exact h.2 q (by simp) x hx'
          · rw [List.mem_singleton.mp hx', hk]
        · exact h.2 p (by simp [hp]) x hx
    · have hcons : (q.1 :: rest.map Prod.fst).Nodup := by simpa using h.1
      have hrest : groupsWF key rest :=
        ⟨(List.nodup_cons.mp hcons).2, fun p hp x hx => h.2 p (by simp [hp]) x hx⟩
      have hih := ih a hrest
      constructor
      · simp only [addToGroups, if_neg hk, List.map_cons, List.nodup_cons]
        constructor
        · rw [addToGroups_fst]
          by_cases hm : key a ∈ rest.map Prod.fst
          · simpa [hm] using (List.nodup_cons.mp hcons).1
          · simp only [if_neg hm, List.mem_append, List.mem_singleton]
            rintro (hq | hq)
            · exact (List.nodup_cons.mp hcons).1 hq
            · exact hk hq
        · exact hih.1
      · intro p hp x hx
        simp only [addToGroups, if_neg hk, List.mem_cons] at hp
        rcases hp with rfl | hp
        · exact h.2 q (by simp) x hx
        · exact hih.2 p hp x hx

theorem mem_flatten_key {α : Type} (key : α → String)
    (gs : List (String × List α)) (h : groupsWF key gs) (x : α)
    (hx : x ∈ (gs.map Prod.snd).flatten) : key x ∈ gs.map Prod.fst := by
  rw [List.mem_flatten] at hx
  obtain ⟨l, hl, hxl⟩ := hx
  obtain ⟨p, hp, rfl⟩ := List.mem_map.mp hl
  rw [h.2 p hp x hxl]
  exact List.mem_map_of_mem _ hp

theorem flatten_addToGroups_perm {α : Type} (key : α → String) :
    ∀ (gs : List (String × List α)) (a : α),
      List.Perm (((addToGroups key gs a).map Prod.snd).flatten)
        ((gs.map Prod.snd).flatten ++ [a]) := by
  intro gs
  induction gs with
  | nil => intro a; simp [addToGroups]
  | cons p rest ih =>
    intro a
    by_cases hk : p.1 = key a
    · simp only [addToGroups, if_pos hk, List.map_cons, List.flatten_cons,
        List.append_assoc]
      exact List.Perm.append_left p.2 List.perm_append_comm
    · simp only [addToGroups, if_neg hk, List.map_cons, List.flatten_cons,
        List.append_assoc]
      exact List.Perm.append_left p.2 (by simpa [List.append_assoc] using ih a)

theorem flatten_foldl_addToGroups_perm {α : Type} (key : α → String) :
    ∀ (as : List α) (gs : List (String × List α)),
      List.Perm (((as.foldl (addToGroups key) gs).map Prod.snd).flatten)
        ((gs.map Prod.snd).flatten ++ as) := by
  intro as
  induction as with
  | nil => intro gs; simp
  | cons a rest ih =>
    intro gs
    refine List.Perm.trans (ih (addToGroups key gs a)) ?_
    refine List.Perm.trans ((flatten_addToGroups_perm key gs a).append_right rest) ?_
    exact List.Perm.of_eq (by simp)

theorem flattenGroups_perm {α : Type} (key : α → String) (as : List α) :
    List.Perm (flattenGroups key as) as := by
  simpa [flattenGroups, groupByCategory] using flatten_foldl_addToGroups_perm key as []

theorem selectKey_flatten_addToGroups {α : Type} (key : α → String) (c : String) :
    ∀ (gs : List (String × List α)) (a : α), groupsWF key gs →
      selectKey key c ((addToGroups key gs a).map Prod.snd).flatten =
        selectKey key c ((gs.map Prod.snd).flatten) ++
          (if key a = c then [a] else []) := by
  intro gs
  induction gs with
  | nil =>
    intro a _
    by_cases hc : key a = c <;> simp [addToGroups, selectKey, hc]
  | cons p rest ih =>
    intro a h
    have hcons : (p.1 :: rest.map Prod.fst).Nodup := by simpa using h.1
    have hrest : groupsWF key rest :=
      ⟨(List.nodup_cons.mp hcons).2,
        fun q hq x hx => h.2 q (by simp [hq]) x hx⟩
    by_cases hk : p.1 = key a
    · simp only [addToGroups, if_pos hk, List.map_cons, List.flatten_cons, selectKey,
        List.filter_append]
      by_cases hc : key a = c
      · have hrestnil :
            List.filter (fun x => decide (key x = c)) (rest.map Prod.snd).flatten
              = [] := by
          rw [List.filter_eq_nil_iff]
          intro x hx hxc
          have hkx : key x = c := of_decide_eq_true hxc
          have hmem := mem_flatten_key key rest hrest x hx
          rw [hkx, ← hc, ← hk] at hmem
          exact (List.nodup_cons.mp hcons).1 hmem
        simp [hrestnil, hc]
      · simp [hc]
    · simp only [addToGroups, if_neg hk, List.map_cons, List.flatten_cons, selectKey,
        List.filter_append] at ih ⊢
      rw [ih a hrest]
      simp [List.append_assoc]

theorem selectKey_flattenGroups {α : Type} (key : α → String) (c : String)
    (as : List α) : selectKey key c (flattenGroups key as) = selectKey key c as := by
  suffices h : ∀ (as : List α) (gs : List (String × List α)), groupsWF key gs →
      selectKey key c ((as.foldl (addToGroups key) gs).map Prod.snd).flatten =
        selectKey key c ((gs.map Prod.snd).flatten) ++ selectKey key c as by
    simpa [flattenGroups, groupByCategory, selectKey] using
      h as [] ⟨by simp, by simp⟩
  intro as
  induction as with
  | nil => intro gs _; simp [selectKey]
  | cons a rest ih =>
    intro gs hgs
    simp only [List.foldl_cons]
    rw [ih _ (addToGroups_WF key gs a hgs), selectKey_flatten_addToGroups key c gs a hgs]
    by_cases hc : key a = c <;> simp [selectKey, hc, List.append_assoc]

/-! ### Lemmas about performing copy actions -/

/-- The links appended to category `c`'s destination file, in the order
`perform_actions` appends them. -/
def copiedFor (c : String) (as : List LinkCopyAction) : List Line :=
  (selectKey LinkCopyAction.category c as).map LinkCopyAction.link

theorem getOutput_foldl_copyPerform (bs : List LinkCopyAction) :
    ∀ (fs : FS) (c : String),
      getOutput (bs.foldl (fun fs a => copyPerform a fs) fs) c
        = getOutput fs c ++ joinL (copiedFor c bs) := by
  induction bs with
  | nil => intro fs c; simp [copiedFor, selectKey, joinL]
  | cons a rest ih =>
    intro fs c
    rw [List.foldl_cons, ih]
    by_cases hc : a.category = c
    · subst hc
      rw [show getOutput (copyPerform a fs) a.category
            = getOutput fs a.category ++ a.link from
          getOutput_setOutput_self fs a.category _]
      simp [copiedFor, selectKey, joinL]
    · rw [show getOutput (copyPerform a fs) c = getOutput fs c from
        getOutput_setOutput_ne fs a.category c _ hc]
      simp [copiedFor, selectKey, hc]

theorem copiedFor_flattenGroups (c : String) (as : List LinkCopyAction) :
    copiedFor c (flattenGroups LinkCopyAction.category as) = copiedFor c as := by
  unfold copiedFor
  rw [selectKey_flattenGroups]

theorem getOutput_performCopies (as : List LinkCopyAction) (fs : FS) (c : String) :
    getOutput (performCopies as fs) c = getOutput fs c ++ joinL (copiedFor c as) := by
  unfold performCopies
  rw [getOutput_foldl_copyPerform, copiedFor_flattenGroups]

theorem inputs_foldl_copyPerform (bs : List LinkCopyAction) :
    ∀ (fs : FS), (bs.foldl (fun fs a => copyPerform a fs) fs).inputs = fs.inputs := by
  induction bs with
  | nil => intro fs; rfl
  | cons a rest ih => intro fs; rw [List.foldl_cons, ih]; rfl

theorem inputs_performCopies (as : List LinkCopyAction) (fs : FS) :
    (performCopies as fs).inputs = fs.inputs :=
  inputs_foldl_copyPerform _ fs

theorem performCopies_nil (fs : FS) : performCopies [] fs = fs := rfl

/-! ### Lemmas about performing removal actions -/

theorem outputs_foldl_removePerform (bs : List RemoveLinksFromFileAction) :
    ∀ (fs : FS),
      (bs.foldl (fun fs a => removePerform a fs) fs).outputs = fs.outputs := by
  induction bs with
  | nil => intro fs; rfl
  | cons a rest ih => intro fs; rw [List.foldl_cons, ih]; rfl

theorem outputs_performRemovals (as : List RemoveLinksFromFileAction) (fs : FS) :
    (performRemovals as fs).outputs = fs.outputs :=
  outputs_foldl_removePerform _ fs

theorem performRemovals_nil (fs : FS) : performRemovals [] fs = fs := rfl

theorem inputs_length_foldl_removePerform (bs : List RemoveLinksFromFileAction) :
    ∀ (fs : FS),
      (bs.foldl (fun fs a => removePerform a fs) fs).inputs.length
        = fs.inputs.length := by
  induction bs with
  | nil => intro fs; rfl
  | cons a rest ih =>
    intro fs
    rw [List.foldl_cons, ih]
    simp [removePerform, setInput, updateAt_length]

theorem getInput_foldl_removePerform (bs : List RemoveLinksFromFileAction) :
    ∀ (fs : FS) (i : Nat),
      (bs.map RemoveLinksFromFileAction.srcIdx).Nodup →
      (∀ a ∈ bs, a.srcIdx < fs.inputs.length) →
      getInput (bs.foldl (fun fs a => removePerform a fs) fs) i
        = match bs.find? (fun a => decide (a.srcIdx = i)) with
          | some a => remove_links_perform a.links (getInput fs i)
          | none => getInput fs i := by
  induction bs with
  | nil => intro fs i _ _; rfl
  | cons a rest ih =>
    intro fs i hnodup hbound
    have hnodup' : (rest.map RemoveLinksFromFileAction.srcIdx).Nodup :=
      (List.nodup_cons.mp (by simpa using hnodup)).2
    have hnotin : a.srcIdx ∉ rest.map RemoveLinksFromFileAction.srcIdx :=
      (List.nodup_cons.mp (by simpa using hnodup)).1
    have hbound' : ∀ b ∈ rest, b.srcIdx < (removePerform a fs).inputs.length := by
      intro b hb
      have : (removePerform a fs).inputs.length = fs.inputs.length := by
        simp [removePerform, setInput, updateAt_length]
      rw [this]
      exact hbound b (by simp [hb])
    rw [List.foldl_cons, ih (removePerform a fs) i hnodup' hbound']
    by_cases hi : a.srcIdx = i
    · subst hi
      have hfind : rest.find? (fun b => decide (b.srcIdx = a.srcIdx)) = none := by
        rw [List.find?_eq_none]
        intro b hb hbeq
        exact hnotin (by
          have : b.srcIdx = a.srcIdx := of_decide_eq_true hbeq
          rw [← this]
          exact List.mem_map_of_mem _ hb)
      rw [hfind]
      have hself : getInput (removePerform a fs) a.srcIdx
          = remove_links_perform a.links (getInput fs a.srcIdx) :=
        getInput_setInput_self fs a.srcIdx _ (hbound a (by simp))
      rw [hself]
      have : List.find? (fun b => decide (b.srcIdx = a.srcIdx)) (a :: rest)
          = some a := by
        rw [List.find?_cons_of_pos]
        simp
      rw [this]
    · have hne : getInput (removePerform a fs) i = getInput fs i :=
        getInput_setInput_ne fs a.srcIdx i _ hi
      rw [hne]
      have : List.find? (fun b => decide (b.srcIdx = i)) (a :: rest)
          = List.find? (fun b => decide (b.srcIdx = i)) rest := by
        rw [List.find?_cons_of_neg]
        simpa using hi
      rw [this]

/-! ### Lemmas about the destination-set cache and copy planning -/

/-- The cache invariant maintained by a run: every cached set is exactly
the line set of that category's destination file. -/
def cacheOK (fs : FS) (cache : Cache) : Prop :=
  ∀ p ∈ cache, p.2 = readlines (getOutput fs p.1)

theorem cacheOK_nil (fs : FS) : cacheOK fs [] := by
  intro p hp; simp at hp

theorem get_links_from_file_fst (cache : Cache) (fs : FS) (c : String)
    (h : cacheOK fs cache) :
    (get_links_from_file cache fs c).1 = readlines (getOutput fs c) := by
  unfold get_links_from_file
  cases hc : lookupA cache c with
  | some s => simpa using h (c, s) (mem_of_lookupA _ _ _ hc)
  | none =>
    cases ho : lookupA fs.outputs c with
    | none => simp [getOutput, ho, readlines, readlinesAux]
    | some content => simp [getOutput, ho]

theorem get_links_from_file_cacheOK (cache : Cache) (fs : FS) (c : String)
    (h : cacheOK fs cache) :
    cacheOK fs (get_links_from_file cache fs c).2 := by
  unfold get_links_from_file
  cases hc : lookupA cache c with
  | some s => simpa using h
  | none =>
    cases ho : lookupA fs.outputs c with
    | none => simpa using h
    | some content =>
      intro p hp
      simp only [List.mem_cons] at hp
      rcases hp with rfl | hp
      · simp [getOutput, ho]
      · exact h p hp

theorem planLines_cacheOK (pats : List (String × List String))
    (search : String → Line → Bool) (fs : FS) (srcIdx : Nat) :
    ∀ (lines : List Line) (n : Nat) (cache : Cache), cacheOK fs cache →
      cacheOK fs (planLines pats search fs srcIdx n lines cache).1 := by
  intro lines
  induction lines with
  | nil => intro n cache h; simpa [planLines] using h
  | cons l rest ih =>
    intro n cache h
    unfold planLines
    cases hcat : categorize_line search l pats with
    | none => exact ih (n + 1) cache h
    | some c =>
      have h' := get_links_from_file_cacheOK cache fs c h
      by_cases hmem : l ∈ (get_links_from_file cache fs c).1
      · simpa [hmem] using ih (n + 1) _ h'
      · simpa [hmem] using ih (n + 1) _ h'

theorem planLines_sound (pats : List (String × List String))
    (search : String → Line → Bool) (fs : FS) (srcIdx : Nat) :
    ∀ (lines : List Line) (n : Nat) (cache : Cache),
      ∀ a ∈ (planLines pats search fs srcIdx n lines cache).2, a.link ∈ lines := by
  intro lines
  induction lines with
  | nil => intro n cache a ha; simp [planLines] at ha
  | cons l rest ih =>
    intro n cache a ha
    unfold planLines at ha
    cases hcat : categorize_line search l pats with
    | none =>
      rw [hcat] at ha
      exact List.mem_cons.mpr (Or.inr (ih (n + 1) cache a ha))
    | some c =>
      rw [hcat] at ha
      simp only at ha
      by_cases hmem : l ∈ (get_links_from_file cache fs c).1
      · rw [if_pos hmem] at ha
        exact List.mem_cons.mpr (Or.inr (ih (n + 1) _ a ha))
      · rw [if_neg hmem] at ha
        rcases List.mem_cons.mp ha with rfl | ha'
        · exact List.mem_cons.mpr (Or.inl rfl)
        · exact List.mem_cons.mpr (Or.inr (ih (n + 1) _ a ha'))

theorem planLines_complete (pats : List (String × List String))
    (search : String → Line → Bool) (fs : FS) (srcIdx : Nat) :
    ∀ (lines : List Line) (n : Nat) (cache : Cache), cacheOK fs cache →
      ∀ l ∈ lines, ∀ c, categorize_line search l pats = some c →
        l ∈ readlines (getOutput fs c) ∨
          ∃ a ∈ (planLines pats search fs srcIdx n lines cache).2,
            a.link = l ∧ a.category = c := by
  intro lines
  induction lines with
  | nil => intro n cache _ l hl; simp at hl
  | cons l0 rest ih =>
    intro n cache hcache l hl c hc
    rcases List.mem_cons.mp hl with rfl | hl'
    · unfold planLines
      rw [hc]
      simp only
      by_cases hmem : l ∈ (get_links_from_file cache fs c).1
      · left
        rw [← get_links_from_file_fst cache fs c hcache]
        exact hmem
      · right
        rw [if_neg hmem]
        exact ⟨⟨c, srcIdx, n, l⟩, by simp, rfl, rfl⟩
    · unfold planLines
      cases hcat : categorize_line search l0 pats with
      | none => exact ih (n + 1) cache hcache l hl' c hc
      | some c0 =>
        simp only
        have hcache' := get_links_from_file_cacheOK cache fs c0 hcache
        by_cases hmem : l0 ∈ (get_links_from_file cache fs c0).1
        · rw [if_pos hmem]
          exact ih (n + 1) _ hcache' l hl' c hc
        · rw [if_neg hmem]
          rcases ih (n + 1) _ hcache' l hl' c hc with hleft | ⟨a, ha, h1, h2⟩
          · exact Or.inl hleft
          · exact Or.inr ⟨a, List.mem_cons.mpr (Or.inr ha), h1, h2⟩

theorem planFiles_sound (pats : List (String × List String))
    (search : String → Line → Bool) (fs : FS) :
    ∀ (files : List (String × List Char)) (i0 : Nat) (cache : Cache),
      ∀ a ∈ planFiles pats search fs i0 files cache,
        ∃ f ∈ files, a.link ∈ readlines f.2 := by
  intro files
  induction files with
  | nil => intro i0 cache a ha; simp [planFiles] at ha
  | cons f rest ih =>
    intro i0 cache a ha
    unfold planFiles at ha
    rcases List.mem_append.mp ha with h1 | h2
    · exact ⟨f, by simp, planLines_sound pats search fs i0 _ 1 cache a h1⟩
    · obtain ⟨g, hg, hmem⟩ := ih (i0 + 1) _ a h2
      exact ⟨g, by simp [hg], hmem⟩

theorem planFiles_complete (pats : List (String × List String))
    (search : String → Line → Bool) (fs : FS) :
    ∀ (files : List (String × List Char)) (i0 : Nat) (cache : Cache),
      cacheOK fs cache →
      ∀ f ∈ files, ∀ l ∈ readlines f.2, ∀ c,
        categorize_line search l pats = some c →
        l ∈ readlines (getOutput fs c) ∨
          ∃ a ∈ planFiles pats search fs i0 files cache,
            a.link = l ∧ a.category = c := by
  intro files
  induction files with
  | nil => intro i0 cache _ f hf; simp at hf
  | cons f0 rest ih =>
    intro i0 cache hcache f hf l hl c hc
    rcases List.mem_cons.mp hf with rfl | hf'
    · rcases planLines_complete pats search fs i0 _ 1 cache hcache l hl c hc with
        hleft | ⟨a, ha, h1, h2⟩
      · exact Or.inl hleft
      · refine Or.inr ⟨a, ?_, h1, h2⟩
        unfold planFiles
        exact List.mem_append.mpr (Or.inl ha)
    · have hcache' := planLines_cacheOK pats search fs i0 (readlines f0.2) 1 cache hcache
      rcases ih (i0 + 1) _ hcache' f hf' l hl c hc with hleft | ⟨a, ha, h1, h2⟩
      · exact Or.inl hleft
      · refine Or.inr ⟨a, ?_, h1, h2⟩
        unfold planFiles
        exact List.mem_append.mpr (Or.inr ha)

theorem planCopies_sound (pats : List (String × List String))
    (search : String → Line → Bool) (fs : FS) :
    ∀ a ∈ planCopies pats search fs, ∃ f ∈ fs.inputs, a.link ∈ readlines f.2 :=
  fun a ha => planFiles_sound pats search fs fs.inputs 0 [] a ha

theorem planCopies_complete (pats : List (String × List String))
    (search : String → Line → Bool) (fs : FS) :
    ∀ f ∈ fs.inputs, ∀ l ∈ readlines f.2, ∀ c,
      categorize_line search l pats = some c →
      l ∈ readlines (getOutput fs c) ∨
        ∃ a ∈ planCopies pats search fs, a.link = l ∧ a.category = c :=
  fun f hf l hl c hc =>
    planFiles_complete pats search fs fs.inputs 0 [] (cacheOK_nil fs) f hf l hl c hc

theorem planLines_nil_of_unclassified (pats : List (String × List String))
    (search : String → Line → Bool) (fs : FS) (srcIdx : Nat) :
    ∀ (lines : List Line) (n : Nat) (cache : Cache),
      (∀ l ∈ lines, categorize_line search l pats = none) →
      (planLines pats search fs srcIdx n lines cache).2 = [] := by
  intro lines
  induction lines with
  | nil => intro n cache _; rfl
  | cons l rest ih =>
    intro n cache h
    unfold planLines
    rw [h l (by simp)]
    exact ih (n + 1) cache (fun x hx => h x (by simp [hx]))

theorem planFiles_nil_of_unclassified (pats : List (String × List String))
    (search : String → Line → Bool) (fs : FS) :
    ∀ (files : List (String × List Char)) (i0 : Nat) (cache : Cache),
      (∀ f ∈ files, ∀ l ∈ readlines f.2, categorize_line search l pats = none) →
      planFiles pats search fs i0 files cache = [] := by
  intro files
  induction files with
  | nil => intro i0 cache _; rfl
  | cons f rest ih =>
    intro i0 cache h
    unfold planFiles
    simp only
    rw [planLines_nil_of_unclassified pats search fs i0 _ 1 cache
      (fun l hl => h f (by simp) l hl)]
    rw [ih (i0 + 1) _ (fun g hg l hl => h g (by simp [hg]) l hl)]
    rfl

/-! ### Lemmas about `keepLines` and `removalLinks` -/

theorem keepLines_sublist (links : List Line) :
    ∀ (L : List Line), List.Sublist (keepLines links L) L := by
  intro L
  induction L with
  | nil => simp [keepLines]
  | cons l rest ih =>
    unfold keepLines
    by_cases h : pstrip l ∈ links
    · rw [if_pos h]
      exact ih.cons l
    · rw [if_neg h]
      exact ih.cons₂ l

theorem mem_keepLines (links : List Line) (l : Line) :
    ∀ (L : List Line), l ∈ keepLines links L ↔ (l ∈ L ∧ pstrip l ∉ links) := by
  intro L
  induction L with
  | nil => simp [keepLines]
  | cons x rest ih =>
    unfold keepLines
    by_cases h : pstrip x ∈ links
    · rw [if_pos h, ih]
      constructor
      · rintro ⟨h1, h2⟩
        exact ⟨by simp [h1], h2⟩
      · rintro ⟨h1, h2⟩
        rcases List.mem_cons.mp h1 with rfl | h1'
        · exact absurd h h2
        · exact ⟨h1', h2⟩
    · rw [if_neg h]
      constructor
      · intro hm
        rcases List.mem_cons.mp hm with rfl | hm'
        · exact ⟨by simp, h⟩
        · exact ⟨by simp [(ih.mp hm').1], (ih.mp hm').2⟩
      · rintro ⟨h1, h2⟩
        rcases List.mem_cons.mp h1 with rfl | h1'
        · simp
        · exact List.mem_cons.mpr (Or.inr (ih.mpr ⟨h1', h2⟩))

theorem keepLines_nil_links : ∀ (L : List Line), keepLines [] L = L := by
  intro L
  induction L with
  | nil => rfl
  | cons l rest ih => simp [keepLines, ih]

theorem keepLines_eq_filter (links : List Line) :
    ∀ (L : List Line),
      keepLines links L = L.filter (fun l => decide (pstrip l ∉ links)) := by
  intro L
  induction L with
  | nil => rfl
  | cons l rest ih =>
    unfold keepLines
    by_cases h : pstrip l ∈ links
    · simp [h, ih]
    · simp [h, ih]

theorem mem_removalLinks_of (categorized : List Line) (content : List Char)
    (l : Line) (hl : l ∈ readlines content) (hc : pstrip l ∈ categorized) :
    pstrip l ∈ removalLinks categorized content := by
  unfold removalLinks
  rw [List.mem_filter]
  exact ⟨List.mem_map_of_mem _ hl, by simpa using hc⟩

theorem removalLinks_subset (categorized : List Line) (content : List Char)
    (s : Line) (hs : s ∈ removalLinks categorized content) : s ∈ categorized := by
  unfold removalLinks at hs
  simpa using (List.mem_filter.mp hs).2

theorem removalLinks_nil_of_empty (categorized : List Line) :
    removalLinks categorized [] = [] := by
  simp [removalLinks, readlines, readlinesAux]

/-! ### Lemmas about removal planning -/

theorem planRemovalsGo_ge (fs : FS) :
    ∀ (files : List (String × List Char)) (i0 : Nat),
      ∀ a ∈ planRemovalsGo fs i0 files, i0 ≤ a.srcIdx := by
  intro files
  induction files with
  | nil => intro i0 a ha; simp [planRemovalsGo] at ha
  | cons f rest ih =>
    intro i0 a ha
    unfold planRemovalsGo at ha
    simp only at ha
    by_cases h : removalLinks (categorizedLines fs) f.2 = []
    · rw [if_pos h] at ha
      exact Nat.le_of_succ_le (ih (i0 + 1) a ha)
    · rw [if_neg h] at ha
      rcases List.mem_cons.mp ha with rfl | ha'
      · exact Nat.le_refl i0
      · exact Nat.le_of_succ_le (ih (i0 + 1) a ha')

theorem planRemovalsGo_nodup (fs : FS) :
    ∀ (files : List (String × List Char)) (i0 : Nat),
      ((planRemovalsGo fs i0 files).map RemoveLinksFromFileAction.srcIdx).Nodup := by
  intro files
  induction files with
  | nil => intro i0; simp [planRemovalsGo]
  | cons f rest ih =>
    intro i0
    unfold planRemovalsGo
    simp only
    by_cases h : removalLinks (categorizedLines fs) f.2 = []
    · rw [if_pos h]
      exact ih (i0 + 1)
    · rw [if_neg h]
      rw [List.map_cons, List.nodup_cons]
      refine ⟨?_, ih (i0 + 1)⟩
      intro hmem
      obtain ⟨a, ha, hae⟩ := List.mem_map.mp hmem
      have hge := planRemovalsGo_ge fs rest (i0 + 1) a ha
      have hae' : a.srcIdx = i0 := by simpa using hae
      omega

theorem planRemovalsGo_spec (fs : FS) :
    ∀ (files : List (String × List Char)) (i0 : Nat),
      files = fs.inputs.drop i0 →
      ∀ a ∈ planRemovalsGo fs i0 files,
        a.srcIdx < fs.inputs.length ∧
        a.links = removalLinks (categorizedLines fs) (getInput fs a.srcIdx) ∧
        a.links ≠ [] := by
  intro files
  induction files with
  | nil => intro i0 _ a ha; simp [planRemovalsGo] at ha
  | cons f rest ih =>
    intro i0 hdrop a ha
    have hget : fs.inputs.get? i0 = some f := by
      have h0 : (fs.inputs.drop i0).get? 0 = fs.inputs.get? i0 := by
        rw [List.get?_drop]
        rfl
      rw [← h0, ← hdrop]
      rfl
    have hgeti : getInput fs i0 = f.2 := by
      unfold getInput
      rw [hget]
      rfl
    have hlen : i0 < fs.inputs.length := by
      by_contra hle
      rw [List.get?_eq_none.mpr (Nat.le_of_not_lt hle)] at hget
      exact Option.noConfusion hget
    have hrest : rest = fs.inputs.drop (i0 + 1) := by
      rw [← List.tail_drop, ← hdrop]
      rfl
    unfold planRemovalsGo at ha
    simp only at ha
    by_cases h : removalLinks (categorizedLines fs) f.2 = []
    · rw [if_pos h] at ha
      exact ih (i0 + 1) hrest a ha
    · rw [if_neg h] at ha
      rcases List.mem_cons.mp ha with rfl | ha'
      · exact ⟨hlen, by rw [hgeti], by simpa [hgeti] using h⟩
      · exact ih (i0 + 1) hrest a ha'

theorem planRemovalsGo_complete (fs : FS) :
    ∀ (files : List (String × List Char)) (i0 : Nat),
      files = fs.inputs.drop i0 →
      ∀ i, i0 ≤ i → i < fs.inputs.length →
        removalLinks (categorizedLines fs) (getInput fs i) ≠ [] →
        ∃ a ∈ planRemovalsGo fs i0 files, a.srcIdx = i := by
  intro files
  induction files with
  | nil =>
    intro i0 hdrop i h1 h2 _
    have : fs.inputs.length ≤ i0 := List.drop_eq_nil_iff_le.mp hdrop.symm
    omega
  | cons f rest ih =>
    intro i0 hdrop i h1 h2 hne
    have hget : fs.inputs.get? i0 = some f := by
      have h0 : (fs.inputs.drop i0).get? 0 = fs.inputs.get? i0 := by
        rw [List.get?_drop]
        rfl
      rw [← h0, ← hdrop]
      rfl
    have hgeti : getInput fs i0 = f.2 := by
      unfold getInput
      rw [hget]
      rfl
    have hrest : rest = fs.inputs.drop (i0 + 1) := by
      rw [← List.tail_drop, ← hdrop]
      rfl
    unfold planRemovalsGo
    simp only
    rcases Nat.eq_or_lt_of_le h1 with rfl | hlt
    · rw [if_neg (by rw [← hgeti]; exact hne)]
      exact ⟨⟨stripTxtName f.1, i0, (readlines f.2).length - 1,
        removalLinks (categorizedLines fs) f.2⟩, by simp, rfl⟩
    · have hex := ih (i0 + 1) hrest i hlt h2 hne
      obtain ⟨a, ha, hae⟩ := hex
      by_cases h : removalLinks (categorizedLines fs) f.2 = []
      · rw [if_pos h]
        exact ⟨a, ha, hae⟩
      · rw [if_neg h]
        exact ⟨a, List.mem_cons.mpr (Or.inr ha), hae⟩

theorem planRemovals_spec (fs : FS) :
    ∀ a ∈ planRemovals fs,
      a.srcIdx < fs.inputs.length ∧
      a.links = removalLinks (categorizedLines fs) (getInput fs a.srcIdx) ∧
      a.links ≠ [] :=
  fun a ha => planRemovalsGo_spec fs fs.inputs 0 (by simp) a ha

theorem planRemovals_complete (fs : FS) (i : Nat) (h2 : i < fs.inputs.length)
    (hne : removalLinks (categorizedLines fs) (getInput fs i) ≠ []) :
    ∃ a ∈ planRemovals fs, a.srcIdx = i :=
  planRemovalsGo_complete fs fs.inputs 0 (by simp) i (Nat.zero_le i) h2 hne

theorem planRemovals_nodup (fs : FS) :
    ((planRemovals fs).map RemoveLinksFromFileAction.srcIdx).Nodup :=
  planRemovalsGo_nodup fs fs.inputs 0

/-! ### The removal phase characterized -/

theorem getInput_removal_phase (fs : FS) (i : Nat)
    (hterm : terminated (getInput fs i)) :
    readlines (getInput (performRemovals (planRemovals fs) fs) i)
      = keepLines (removalLinks (categorizedLines fs) (getInput fs i))
          (readlines (getInput fs i)) := by
  have hperm := flattenGroups_perm RemoveLinksFromFileAction.category (planRemovals fs)
  have hnodup :
      ((flattenGroups RemoveLinksFromFileAction.category (planRemovals fs)).map
        RemoveLinksFromFileAction.srcIdx).Nodup :=
    ((hperm.map RemoveLinksFromFileAction.srcIdx).symm).nodup (planRemovals_nodup fs)
  have hbound : ∀ a ∈ flattenGroups RemoveLinksFromFileAction.category
      (planRemovals fs), a.srcIdx < fs.inputs.length := by
    intro a ha
    exact (planRemovals_spec fs a (hperm.mem_iff.mp ha)).1
  unfold performRemovals
  rw [getInput_foldl_removePerform _ fs i hnodup hbound]
  cases hfind : (flattenGroups RemoveLinksFromFileAction.category
      (planRemovals fs)).find? (fun a => decide (a.srcIdx = i)) with
  | some a =>
    simp only
    have hmem : a ∈ planRemovals fs :=
      hperm.mem_iff.mp (List.mem_of_find?_eq_some hfind)
    have hpredb := List.find?_some hfind
    have hpred : a.srcIdx = i := of_decide_eq_true hpredb
    have hlinks : a.links
        = removalLinks (categorizedLines fs) (getInput fs i) := by
      rw [(planRemovals_spec fs a hmem).2.1, hpred]
    rw [hlinks]
    unfold remove_links_perform
    refine readlines_joinL _ ?_
    intro l hl
    have hsub := keepLines_sublist
      (removalLinks (categorizedLines fs) (getInput fs i)) (readlines (getInput fs i))
    exact readlines_wf _ hterm l (hsub.mem hl)
  | none =>
    simp only
    have hlinksnil : removalLinks (categorizedLines fs) (getInput fs i) = [] := by
      by_contra hne
      by_cases hlen : i < fs.inputs.length
      · obtain ⟨a, ha, hae⟩ := planRemovals_complete fs i hlen hne
        have hamem : a ∈ flattenGroups RemoveLinksFromFileAction.category
            (planRemovals fs) := hperm.mem_iff.mpr ha
        have := List.find?_eq_none.mp hfind a hamem
        simp [hae] at this
      · have : getInput fs i = [] := getInput_of_ge fs i (Nat.le_of_not_lt hlen)
        rw [this, removalLinks_nil_of_empty] at hne
        exact hne rfl
    rw [hlinksnil, keepLines_nil_links]

theorem removal_phase_survivor_not_categorized (fs : FS) (i : Nat) (l : Line)
    (hterm : terminated (getInput fs i))
    (hl : l ∈ readlines (getInput (performRemovals (planRemovals fs) fs) i)) :
    l ∈ readlines (getInput fs i) ∧ pstrip l ∉ categorizedLines fs := by
  rw [getInput_removal_phase fs i hterm] at hl
  obtain ⟨h1, h2⟩ := (mem_keepLines _ _ _).mp hl
  refine ⟨h1, fun hcat => h2 ?_⟩
  exact mem_removalLinks_of _ _ l h1 hcat

theorem removal_phase_keeps_uncategorized (fs : FS) (i : Nat) (l : Line)
    (hterm : terminated (getInput fs i))
    (hl : l ∈ readlines (getInput fs i))
    (hcat : pstrip l ∉ categorizedLines fs) :
    l ∈ readlines (getInput (performRemovals (planRemovals fs) fs) i) := by
  rw [getInput_removal_phase fs i hterm]
  refine (mem_keepLines _ _ _).mpr ⟨hl, fun hmem => ?_⟩
  exact hcat (removalLinks_subset _ _ _ hmem)

theorem removal_phase_sublist (fs : FS) (i : Nat)
    (hterm : terminated (getInput fs i)) :
    List.Sublist (readlines (getInput (performRemovals (planRemovals fs) fs) i))
      (readlines (getInput fs i)) := by
  rw [getInput_removal_phase fs i hterm]
  exact keepLines_sublist _ _

/-! ### Run-level helper lemmas -/

theorem mem_get? {α : Type} :
    ∀ (l : List α) (a : α), a ∈ l → ∃ i, l.get? i = some a := by
  intro l
  induction l with
  | nil => intro a ha; simp at ha
  | cons x rest ih =>
    intro a ha
    rcases List.mem_cons.mp ha with rfl | ha'
    · exact ⟨0, rfl⟩
    · obtain ⟨i, hi⟩ := ih a ha'
      exact ⟨i + 1, by simpa using hi⟩

theorem copyPhase_yes (pats : List (String × List String))
    (search : String → Line → Bool) (cc : Bool) (fs : FS) :
    (if (planCopies pats search fs).length ≠ 0 ∧ (True ∨ cc = true)
      then performCopies (planCopies pats search fs) fs else fs)
      = performCopies (planCopies pats search fs) fs := by
  by_cases h : (planCopies pats search fs).length ≠ 0
  · rw [if_pos ⟨h, Or.inl trivial⟩]
  · rw [if_neg (fun hc => h hc.1)]
    have hnil : planCopies pats search fs = [] :=
      List.length_eq_zero.mp (not_not.mp h)
    rw [hnil, performCopies_nil]

theorem runSteps_copyCount (pats : List (String × List String))
    (search : String → Line → Bool) (yes rf cc cr : Bool) (fs : FS) :
    (runSteps pats search yes rf cc cr fs).copyCount
      = (planCopies pats search fs).length := rfl

theorem runSteps_yes_fs (pats : List (String × List String))
    (search : String → Line → Bool) (rf cc cr : Bool) (fs : FS) :
    (runSteps pats search true rf cc cr fs).fs
      = if rf = true then
          performRemovals
            (planRemovals (performCopies (planCopies pats search fs) fs))
            (performCopies (planCopies pats search fs) fs)
        else performCopies (planCopies pats search fs) fs := by
  cases rf with
  | true =>
    unfold runSteps
    simp only
    rw [copyPhase_yes]
    by_cases hpr : planRemovals (performCopies (planCopies pats search fs) fs) = []
    · simp [hpr, performRemovals_nil]
    · simp [hpr]
  | false =>
    unfold runSteps
    simp only
    rw [copyPhase_yes]
    simp

theorem runSteps_yes_removeCount (pats : List (String × List String))
    (search : String → Line → Bool) (rf cc cr : Bool) (fs : FS) :
    (runSteps pats search true rf cc cr fs).removeCount
      = if rf = true then
          (planRemovals (performCopies (planCopies pats search fs) fs)).length
        else 0 := by
  cases rf with
  | true =>
    unfold runSteps
    simp only
    rw [copyPhase_yes]
    simp
  | false =>
    unfold runSteps
    simp only
    rw [copyPhase_yes]
    simp

theorem planRemovalsGo_nil_of (fs : FS) :
    ∀ (files : List (String × List Char)) (i0 : Nat),
      (∀ f ∈ files, removalLinks (categorizedLines fs) f.2 = []) →
      planRemovalsGo fs i0 files = [] := by
  intro files
  induction files with
  | nil => intro i0 _; rfl
  | cons f rest ih =>
    intro i0 h
    unfold planRemovalsGo
    simp only
    rw [if_pos (h f (by simp))]
    exact ih (i0 + 1) (fun g hg => h g (by simp [hg]))

theorem copiedFor_wf (pats : List (String × List String))
    (search : String → Line → Bool) (fs : FS)
    (hIn : ∀ f ∈ fs.inputs, terminated f.2) (c : String) :
    ∀ x ∈ copiedFor c (planCopies pats search fs), isNL x := by
  intro x hx
  unfold copiedFor at hx
  obtain ⟨a, ha, rfl⟩ := List.mem_map.mp hx
  have ha' : a ∈ planCopies pats search fs := List.mem_of_mem_filter ha
  obtain ⟨f, hf, hlink⟩ := planCopies_sound pats search fs a ha'
  exact readlines_wf f.2 (hIn f hf) a.link hlink

/-- Every line of an input file of `fs` that the classifier assigns to a
category has, after the copy phase, its stripped form among the stripped
destination lines: it was either already in the destination file or has
just been appended to it. -/
theorem classified_in_categorized (pats : List (String × List String))
    (search : String → Line → Bool) (fs : FS)
    (hIn : ∀ f ∈ fs.inputs, terminated f.2)
    (hOut : ∀ g ∈ fs.outputs, terminated g.2)
    (f : String × List Char) (hf : f ∈ fs.inputs) (l : Line)
    (hl : l ∈ readlines f.2) (c : String)
    (hc : categorize_line search l pats = some c) :
    pstrip l ∈ categorizedLines (performCopies (planCopies pats search fs) fs) := by
  have hread : readlines (getOutput (performCopies (planCopies pats search fs) fs) c)
      = readlines (getOutput fs c) ++ copiedFor c (planCopies pats search fs) := by
    rw [getOutput_performCopies]
    exact readlines_append_joinL _ _ (terminated_getOutput fs c hOut)
      (copiedFor_wf pats search fs hIn c)
  rcases planCopies_complete pats search fs f hf l hl c hc with
    hleft | ⟨a, ha, hlink, hcat⟩
  · refine pstrip_mem_categorizedLines _ c l ?_
    rw [hread]
    exact List.mem_append.mpr (Or.inl hleft)
  · have hmem : l ∈ copiedFor c (planCopies pats search fs) := by
      unfold copiedFor selectKey
      exact List.mem_map.mpr ⟨a, List.mem_filter.mpr ⟨ha, by simp [hcat]⟩, hlink⟩
    refine pstrip_mem_categorizedLines _ c l ?_
    rw [hread]
    exact List.mem_append.mpr (Or.inr hmem)

/-- After a full auto-confirmed run with removal (copy phase then removal
phase), every line still present in an input file is unclassified, and its
stripped form is not among the stripped destination lines. -/
theorem survivor_unclassified (pats : List (String × List String))
    (search : String → Line → Bool) (fs0 : FS)
    (hIn : ∀ f ∈ fs0.inputs, terminated f.2)
    (hOut : ∀ g ∈ fs0.outputs, terminated g.2)
    (i : Nat) (l : Line)
    (hl : l ∈ readlines (getInput (performRemovals
        (planRemovals (performCopies (planCopies pats search fs0) fs0))
        (performCopies (planCopies pats search fs0) fs0)) i)) :
    categorize_line search l pats = none ∧
    pstrip l ∉ categorizedLines (performCopies (planCopies pats search fs0) fs0) := by
  set fs1 := performCopies (planCopies pats search fs0) fs0 with hfs1
  have hInputs1 : fs1.inputs = fs0.inputs := inputs_performCopies _ _
  have hIn1 : ∀ f ∈ fs1.inputs, terminated f.2 := by rw [hInputs1]; exact hIn
  have hterm1 : terminated (getInput fs1 i) := terminated_getInput fs1 i hIn1
  obtain ⟨hmem, hncat⟩ := removal_phase_survivor_not_categorized fs1 i l hterm1 hl
  refine ⟨?_, hncat⟩
  cases hcat : categorize_line search l pats with
  | none => rfl
  | some c =>
    exfalso
    have hgi : getInput fs1 i = getInput fs0 i := getInput_eq_of_inputs fs1 fs0 hInputs1 i
    rw [hgi] at hmem
    cases hx : fs0.inputs.get? i with
    | none =>
      rw [show getInput fs0 i = [] by unfold getInput; rw [hx]; rfl] at hmem
      simp [readlines, readlinesAux] at hmem
    | some f =>
      have hf : f ∈ fs0.inputs := List.get?_mem hx
      have hfl : l ∈ readlines f.2 := by
        rwa [show getInput fs0 i = f.2 by unfold getInput; rw [hx]; rfl] at hmem
      exact hncat (classified_in_categorized pats search fs0 hIn hOut f hf l hfl c hcat)

/-- C3 (amended): idempotence of the auto-confirm run with removal enabled
holds for newline-terminated files.  When every input file and every
pre-existing destination file is empty or ends with a newline, a second
run on the state produced by a first run proposes zero copy actions and
zero removal actions.  (On non-terminated files appends can merge lines,
and idempotence fails — see the counterexample.) -/
theorem c3_idempotent_of_terminated (pats : List (String × List String))
    (search : String → Line → Bool) (cc cr cc' cr' : Bool) (fs : FS)
    (hIn : ∀ f ∈ fs.inputs, terminated f.2)
    (hOut : ∀ g ∈ fs.outputs, terminated g.2) :
    (runEngine pats search true true cc' cr'
        (runEngine pats search true true cc cr fs).fs).copyCount = 0 ∧
    (runEngine pats search true true cc' cr'
        (runEngine pats search true true cc cr fs).fs).removeCount = 0 := by
  set fs0 : FS := { fs with outputDirCreated := true } with hfs0
  have hIn0 : ∀ f ∈ fs0.inputs, terminated f.2 := hIn
  have hOut0 : ∀ g ∈ fs0.outputs, terminated g.2 := hOut
  set fs1 : FS := performCopies (planCopies pats search fs0) fs0 with hfs1
  set fs2 : FS := performRemovals (planRemovals fs1) fs1 with hfs2
  have hrun1 : (runEngine pats search true true cc cr fs).fs = fs2 := by
    unfold runEngine
    rw [runSteps_yes_fs]
    simp [hfs1, hfs2, hfs0]
  -- every line surviving run 1 is unclassified and uncategorized
  have hsurv : ∀ i l, l ∈ readlines (getInput fs2 i) →
      categorize_line search l pats = none ∧ pstrip l ∉ categorizedLines fs1 := by
    intro i l hl
    exact survivor_unclassified pats search fs0 hIn0 hOut0 i l (by
      rw [← hfs1, ← hfs2] at *
      exact hl)
  -- membership form of the same fact
  have hsurv' : ∀ f ∈ fs2.inputs, ∀ l ∈ readlines f.2,
      categorize_line search l pats = none ∧ pstrip l ∉ categorizedLines fs1 := by
    intro f hf l hl
    obtain ⟨i, hi⟩ := mem_get? fs2.inputs f hf
    refine hsurv i l ?_
    rw [show getInput fs2 i = f.2 by unfold getInput; rw [hi]; rfl]
    exact hl
  -- run 2 state after mkdir
  rw [hrun1]
  have hplan2 : planCopies pats search ({ fs2 with outputDirCreated := true }) = [] := by
    unfold planCopies
    exact planFiles_nil_of_unclassified pats search _ _ 0 []
      (fun f hf l hl => (hsurv' f hf l hl).1)
  constructor
  · unfold runEngine
    rw [runSteps_copyCount, hplan2]
    rfl
  · unfold runEngine
    rw [runSteps_yes_removeCount]
    simp only [if_pos rfl]
    rw [hplan2, performCopies_nil]
    have hpr2 : planRemovals ({ fs2 with outputDirCreated := true }) = [] := by
      unfold planRemovals
      refine planRemovalsGo_nil_of _ _ 0 ?_
      intro f hf
      have hcat2 : categorizedLines ({ fs2 with outputDirCreated := true } : FS)
          = categorizedLines fs1 := by
        refine categorizedLines_eq_of_outputs _ _ ?_
        show fs2.outputs = fs1.outputs
        rw [hfs2]
        exact outputs_performRemovals _ _
      rw [hcat2]
      unfold removalLinks
      rw [List.filter_eq_nil_iff]
      intro s hs hdec
      obtain ⟨l, hl, rfl⟩ := List.mem_map.mp hs
      exact (hsurv' f hf l hl).2 (of_decide_eq_true hdec)
    rw [hpr2]
    rfl

/-- C3 witness: a concrete newline-terminated state on which the amended
idempotence theorem applies. -/
theorem c3_idempotent_witness :
    (runEngine [("a", ["a"])] litSearchIC true true false false
        (runEngine [("a", ["a"])] litSearchIC true true false false
          ⟨[("i.txt", ['a', '\n'])], [], false⟩).fs).copyCount = 0 ∧
    (runEngine [("a", ["a"])] litSearchIC true true false false
        (runEngine [("a", ["a"])] litSearchIC true true false false
          ⟨[("i.txt", ['a', '\n'])], [], false⟩).fs).removeCount = 0 :=
  c3_idempotent_of_terminated [("a", ["a"])] litSearchIC false false false false
    ⟨[("i.txt", ['a', '\n'])], [], false⟩
    (by
      intro f hf
      have : f = ("i.txt", ['a', '\n']) := by simpa using hf
      rw [this]
      exact Or.inr ⟨['a'], rfl⟩)
    (by intro g hg; simp at hg)

/-- C3 counterexample: the claim as stated fails.  With the category
mapping `{"a": ["a"]}`, input file `in.txt` containing `"a\n"` and a
pre-existing destination file `a.txt` whose content `"x"` does not end in
a newline, the first auto-confirmed run appends `"a\n"` producing the
single destination line `"xa\n"`; the removal pass then finds no match for
the source line, and the second run proposes the same copy again: the
second run has one copy action, not zero. -/
theorem c3_counterexample :
    ¬ ((runEngine [("a", ["a"])] litSearchIC true true false false
          (runEngine [("a", ["a"])] litSearchIC true true false false
            ⟨[("in.txt", ['a', '\n'])], [("a", ['x'])], false⟩).fs).copyCount = 0 ∧
       (runEngine [("a", ["a"])] litSearchIC true true false false
          (runEngine [("a", ["a"])] litSearchIC true true false false
            ⟨[("in.txt", ['a', '\n'])], [("a", ['x'])], false⟩).fs).removeCount = 0) := by
  decide

/-! ### Claims C4, C5, C6, C7 -/

/-- C4: for every line and every ordered category-to-pattern-list mapping,
`categorize_line` returns the name of the first category in map iteration
order having any pattern, taken in list order, that the match oracle
(modelling `re.search` with `re.IGNORECASE`, applied to the untrimmed
line) accepts, and `none` when no pattern of any category matches.  As a
Lean function it is pure and deterministic by construction. -/
theorem c4_classify_first_match (search : String → Line → Bool) (line : Line)
    (pats : List (String × List String)) :
    categorize_line search line pats = classifySpec search line pats := by
  induction pats with
  | nil => rfl
  | cons p rest ih =>
    cases p with
    | mk c ps =>
      unfold categorize_line classifySpec
      by_cases h : (ps.any (fun pat => search pat line)) = true
      · rw [if_pos h]
        rw [List.find?_cons_of_pos _ (by simpa using h)]
        rfl
      · rw [if_neg h]
        rw [List.find?_cons_of_neg _ (by simpa using h)]
        exact ih

theorem goList_map_str : ∀ (pats : List String),
    strListOf.goList (pats.map Json.str) = some pats := by
  intro pats
  induction pats with
  | nil => rfl
  | cons p rest ih => simp [strListOf.goList, ih]

/-- C5 counterexample: the pattern string `"("` is not a valid regular
expression (Python `re.compile("(")` raises `re.error: missing ),
unterminated subpattern`), yet `load_category_patterns` accepts the
configuration containing it: no error is surfaced at load time.  (In the
source, the error instead surfaces at classification time, when
`re.search` first evaluates the pattern.) -/
theorem c5_counterexample :
    load_category_patterns (Json.obj [("news", Json.arr [Json.str "("])])
      = Except.ok [("news", ["("])] := rfl

/-- C5 (amended): configuration loading validates only the shape of the
category set (an object whose values are lists of strings); the pattern
strings themselves are never compiled or inspected, so any pattern string,
including an invalid regular expression, loads successfully, and a pattern
error can only surface later, at classification time. -/
theorem c5_load_is_shape_only (name : String) (pats : List String)
    (rest : List (String × Json)) (tail : List (String × List String))
    (h : load_category_patterns.goObj rest = Except.ok tail) :
    load_category_patterns (Json.obj ((name, Json.arr (pats.map Json.str)) :: rest))
      = Except.ok ((name, pats) :: tail) := by
  unfold load_category_patterns load_category_patterns.goObj
  rw [show strListOf (Json.arr (pats.map Json.str)) = some pats from goList_map_str pats]
  rw [h]

/-- C5 witness: the amended theorem applied to a one-category
configuration whose single pattern is the invalid regex `"("`. -/
theorem c5_load_is_shape_only_witness :
    load_category_patterns (Json.obj [("news", Json.arr [Json.str "("])])
      = Except.ok [("news", ["("])] ∧
    load_category_patterns.goObj [] = Except.ok [] :=
  ⟨by
    have h := c5_load_is_shape_only "news" ["("] [] [] rfl
    simpa using h,
   rfl⟩

/-- C6 counterexample: with a category file whose value is not a list
(`{"news": "not-a-list"}`), loading fails with the descriptive error, but
the output directory has already been created: in the source,
`output_path.mkdir(parents=True, exist_ok=True)` runs before
`load_category_patterns`, so a filesystem mutation does precede the load
failure.  (Input files are indeed untouched.) -/
theorem c6_counterexample :
    (categorize_websites (Json.obj [("news", Json.str "not-a-list")]) litSearchIC
        true true false false ⟨[("a.txt", ['x', '\n'])], [], false⟩).err
      = some "Each category must map to a list of regex strings. Problem in category: news" ∧
    (categorize_websites (Json.obj [("news", Json.str "not-a-list")]) litSearchIC
        true true false false ⟨[("a.txt", ['x', '\n'])], [], false⟩).fs.outputDirCreated
      = true := by
  constructor
  · rfl
  · rfl

/-- C6 (amended): for every malformed category configuration, loading
fails with the descriptive error before any file is read or written —
input files and destination files are byte-identical to their pre-run
state — but after the output directory has been created, which is the one
filesystem mutation preceding the load. -/
theorem c6_load_error_preserves_files (j : Json) (search : String → Line → Bool)
    (yes rf cc cr : Bool) (fs : FS) (e : String)
    (h : load_category_patterns j = Except.error e) :
    (categorize_websites j search yes rf cc cr fs).err = some e ∧
    (categorize_websites j search yes rf cc cr fs).fs.inputs = fs.inputs ∧
    (categorize_websites j search yes rf cc cr fs).fs.outputs = fs.outputs ∧
    (categorize_websites j search yes rf cc cr fs).fs.outputDirCreated = true := by
  unfold categorize_websites
  rw [h]
  exact ⟨rfl, rfl, rfl, rfl⟩

/-- C6 witness: the amended theorem applied to the spec's malformed
configuration scenario. -/
theorem c6_load_error_preserves_files_witness :
    (categorize_websites (Json.obj [("news", Json.str "not-a-list")]) litSearchIC
        true true false false ⟨[("a.txt", ['x', '\n'])], [], false⟩).err
      = some "Each category must map to a list of regex strings. Problem in category: news" ∧
    (categorize_websites (Json.obj [("news", Json.str "not-a-list")]) litSearchIC
        true true false false ⟨[("a.txt", ['x', '\n'])], [], false⟩).fs.inputs
      = [("a.txt", ['x', '\n'])] ∧
    (categorize_websites (Json.obj [("news", Json.str "not-a-list")]) litSearchIC
        true true false false ⟨[("a.txt", ['x', '\n'])], [], false⟩).fs.outputs
      = [] ∧
    (categorize_websites (Json.obj [("news", Json.str "not-a-list")]) litSearchIC
        true true false false ⟨[("a.txt", ['x', '\n'])], [], false⟩).fs.outputDirCreated
      = true :=
  c6_load_error_preserves_files (Json.obj [("news", Json.str "not-a-list")])
    litSearchIC true true false false ⟨[("a.txt", ['x', '\n'])], [], false⟩
    "Each category must map to a list of regex strings. Problem in category: news" rfl

/-- C7 counterexample: two removal actions on two distinct files; the
first file's open raises (the path disappeared between scan and write).
The batch is aborted at the first raise: the second file keeps its line
`"b\n"` even though performing its pending action alone would have
rewritten it to empty — the engine does not continue with remaining
files, contradicting the claimed per-file failure isolation. -/
theorem c7_counterexample :
    perform_actions_fallible RemoveLinksFromFileAction.category removePerform
        (fun a => a.srcIdx == 0)
        [⟨"a", 0, 0, [['a']]⟩, ⟨"b", 1, 0, [['b']]⟩]
        ⟨[("a.txt", ['a', '\n']), ("b.txt", ['b', '\n'])], [], true⟩
      = (⟨[("a.txt", ['a', '\n']), ("b.txt", ['b', '\n'])], [], true⟩,
          some "FileNotFoundError") ∧
    getInput (removePerform ⟨"b", 1, 0, [['b']]⟩
        ⟨[("a.txt", ['a', '\n']), ("b.txt", ['b', '\n'])], [], true⟩) 1 = [] := by
  decide

/-- C7 (amended): `perform_actions` contains no exception handling, so the
first I/O failure in a batch propagates: every action before the failing
one has been applied and persists, the failure is reported, and every
action after it — including actions on unrelated files — is abandoned;
the whole run's apply phase stops rather than continuing per-file. -/
theorem c7_first_failure_aborts_batch {α : Type} (app : α → FS → FS)
    (fails : α → Bool) (pre post : List α) (a : α) (fs : FS)
    (hpre : ∀ b ∈ pre, fails b = false) (ha : fails a = true) :
    performListF app fails (pre ++ a :: post) fs
      = (pre.foldl (fun fs b => app b fs) fs, some "FileNotFoundError") := by
  induction pre generalizing fs with
  | nil =>
    unfold performListF
    simp [ha]
  | cons b rest ih =>
    have hb : fails b = false := hpre b (by simp)
    rw [List.cons_append]
    unfold performListF
    rw [if_neg (by simp [hb])]
    rw [ih (app b fs) (fun x hx => hpre x (by simp [hx]))]
    rfl

/-- C7 witness: the amended theorem at a concrete batch of two removal
actions where the second action's open fails. -/
theorem c7_first_failure_aborts_batch_witness :
    performListF (fun (a : RemoveLinksFromFileAction) fs => removePerform a fs)
        (fun a => a.srcIdx == 1)
        ([⟨"a", 0, 0, [['a']]⟩] ++ (⟨"b", 1, 0, [['b']]⟩ : RemoveLinksFromFileAction)
          :: [])
        ⟨[("a.txt", ['a', '\n']), ("b.txt", ['b', '\n'])], [], true⟩
      = ([(⟨"a", 0, 0, [['a']]⟩ : RemoveLinksFromFileAction)].foldl
          (fun fs b => removePerform b fs)
          ⟨[("a.txt", ['a', '\n']), ("b.txt", ['b', '\n'])], [], true⟩,
          some "FileNotFoundError") :=
  c7_first_failure_aborts_batch (fun a fs => removePerform a fs)
    (fun a => a.srcIdx == 1) [⟨"a", 0, 0, [['a']]⟩] [] ⟨"b", 1, 0, [['b']]⟩
    ⟨[("a.txt", ['a', '\n']), ("b.txt", ['b', '\n'])], [], true⟩
    (by decide) (by decide)

/-! ### Helpers for `process_files` (hardcoded interactive variant) -/

theorem updateAt_drop {α : Type} :
    ∀ (n : Nat) (g : α → α) (l : List α),
      (updateAt n g l).drop (n + 1) = l.drop (n + 1) := by
  intro n
  induction n with
  | zero => intro g l; cases l <;> simp [updateAt]
  | succ n ih => intro g l; cases l <;> simp [updateAt, ih]

theorem joinL_terminated (L : List Line) (h : ∀ l ∈ L, isNL l) :
    terminated (joinL L) := by
  induction L with
  | nil => exact Or.inl rfl
  | cons l rest ih =>
    obtain ⟨m, rfl, -⟩ := h l (by simp)
    have hjoin : joinL ((m ++ ['\n']) :: rest) = (m ++ ['\n']) ++ joinL rest := by
      simp [joinL]
    rcases ih (fun x hx => h x (by simp [hx])) with hnil | ⟨m', hm'⟩
    · rw [hjoin, hnil]
      exact Or.inr ⟨m, by simp⟩
    · rw [hjoin, hm']
      exact Or.inr ⟨(m ++ ['\n']) ++ m', by simp⟩

theorem processLines_inputs (search : String → Line → Bool) (dec : Nat → Bool) :
    ∀ (lines : List Line) (n : Nat) (fs : FS),
      (processLines search dec n lines fs).2.inputs = fs.inputs := by
  intro lines
  induction lines with
  | nil => intro n fs; rfl
  | cons l rest ih =>
    intro n fs
    unfold processLines
    cases hcat : categorize_line search l CATEGORY_PATTERNS with
    | some c =>
      simp only
      by_cases hd : dec n = true
      · rw [if_pos hd, ih]
        rfl
      · rw [if_neg hd]
        exact ih (n + 1) fs
    | none => exact ih (n + 1) fs

theorem processLines_kept_sublist (search : String → Line → Bool) (dec : Nat → Bool) :
    ∀ (lines : List Line) (n : Nat) (fs : FS),
      List.Sublist (processLines search dec n lines fs).1 lines := by
  intro lines
  induction lines with
  | nil => intro n fs; simp [processLines]
  | cons l rest ih =>
    intro n fs
    unfold processLines
    cases hcat : categorize_line search l CATEGORY_PATTERNS with
    | some c =>
      simp only
      by_cases hd : dec n = true
      · rw [if_pos hd]
        exact (ih (n + 1) _).cons l
      · rw [if_neg hd]
        exact (ih (n + 1) fs).cons₂ l
    | none => exact (ih (n + 1) fs).cons₂ l

theorem processFilesGo_sublist (search : String → Line → Bool) (dec : Nat → Nat → Bool) :
    ∀ (files : List (String × List Char)) (i0 : Nat) (fs : FS),
      files = fs.inputs.drop i0 →
      ∀ i, terminated (getInput fs i) →
        List.Sublist (readlines (getInput (processFilesGo search dec i0 files fs) i))
          (readlines (getInput fs i)) := by
  intro files
  induction files with
  | nil =>
    intro i0 fs _ i _
    exact List.Sublist.refl _
  | cons f rest ih =>
    intro i0 fs hdrop i hterm
    have hget : fs.inputs.get? i0 = some f := by
      have h0 : (fs.inputs.drop i0).get? 0 = fs.inputs.get? i0 := by
        rw [List.get?_drop]
        rfl
      rw [← h0, ← hdrop]
      rfl
    have hgeti : getInput fs i0 = f.2 := by
      unfold getInput
      rw [hget]
      rfl
    have hlen : i0 < fs.inputs.length := by
      by_contra hle
      rw [List.get?_eq_none.mpr (Nat.le_of_not_lt hle)] at hget
      exact Option.noConfusion hget
    have hIr : (processLines search (dec i0) 0 (readlines f.2) fs).2.inputs
        = fs.inputs := processLines_inputs search (dec i0) (readlines f.2) 0 fs
    have hrest' : rest = (setInput (processLines search (dec i0) 0 (readlines f.2) fs).2
        i0 (fun _ => joinL (processLines search (dec i0) 0 (readlines f.2) fs).1)).inputs.drop
          (i0 + 1) := by
      show rest = (updateAt i0 _
        (processLines search (dec i0) 0 (readlines f.2) fs).2.inputs).drop (i0 + 1)
      rw [hIr, updateAt_drop, ← List.tail_drop, ← hdrop]
      rfl
    have hkept := processLines_kept_sublist search (dec i0) (readlines f.2) 0 fs
    unfold processFilesGo
    simp only
    by_cases hii : i = i0
    · subst hii
      have htermf : terminated f.2 := by rwa [hgeti] at hterm
      have hwf : ∀ l ∈ (processLines search (dec i) 0 (readlines f.2) fs).1, isNL l :=
        fun l hl => readlines_wf f.2 htermf l (hkept.mem hl)
      have h1 : getInput (setInput (processLines search (dec i) 0 (readlines f.2) fs).2
          i (fun _ => joinL (processLines search (dec i) 0 (readlines f.2) fs).1)) i
          = joinL (processLines search (dec i) 0 (readlines f.2) fs).1 := by
        rw [getInput_setInput_self _ _ _ (by rw [hIr]; exact hlen)]
      have hterm' : terminated (getInput (setInput
          (processLines search (dec i) 0 (readlines f.2) fs).2 i
          (fun _ => joinL (processLines search (dec i) 0 (readlines f.2) fs).1)) i) := by
        rw [h1]
        exact joinL_terminated _ hwf
      refine List.Sublist.trans (ih (i + 1) _ hrest' i hterm') ?_
      rw [h1, readlines_joinL _ hwf, hgeti]
      exact hkept
    · have h1 : getInput (setInput (processLines search (dec i0) 0 (readlines f.2) fs).2
          i0 (fun _ => joinL (processLines search (dec i0) 0 (readlines f.2) fs).1)) i
          = getInput fs i := by
        rw [getInput_setInput_ne _ _ _ _ (fun e => hii e.symm)]
        exact getInput_eq_of_inputs _ fs hIr i
      have hIH := ih (i0 + 1) _ hrest' i (by rw [h1]; exact hterm)
      rw [h1] at hIH
      exact hIH

theorem process_files_sublist (search : String → Line → Bool)
    (dec : Nat → Nat → Bool) (fs : FS) (i : Nat)
    (hterm : terminated (getInput fs i)) :
    List.Sublist (readlines (getInput (process_files search dec fs) i))
      (readlines (getInput fs i)) := by
  unfold process_files
  exact processFilesGo_sublist search dec fs.inputs 0
    { fs with outputDirCreated := true } rfl i hterm

/-! ### Claims C8, C9 -/

/-- C8: (a) a source-file rewrite by `RemoveLinksFromFileAction.perform`
keeps the retained lines in their original relative order (the result's
lines are a sublist of the original's); (b) the removal phase proposes at
most one removal action per source file — the planned actions' source
indices are distinct, so each file is rewritten at most once; (c) the
fused variant `process_files` also rewrites each file once, with retained
lines a sublist of the original lines. -/
theorem c8_order_preserved_single_rewrite :
    (∀ (links : List Line) (content : List Char), terminated content →
        List.Sublist (readlines (remove_links_perform links content))
          (readlines content)) ∧
    (∀ fs : FS, ((planRemovals fs).map RemoveLinksFromFileAction.srcIdx).Nodup) ∧
    (∀ (search : String → Line → Bool) (dec : Nat → Nat → Bool) (fs : FS) (i : Nat),
        terminated (getInput fs i) →
        List.Sublist (readlines (getInput (process_files search dec fs) i))
          (readlines (getInput fs i))) := by
  refine ⟨?_, planRemovals_nodup, process_files_sublist⟩
  intro links content h
  unfold remove_links_perform
  rw [readlines_joinL _
    (fun l hl => readlines_wf content h l ((keepLines_sublist links _).mem hl))]
  exact keepLines_sublist links _

/-- C8 witness: the order-preservation parts applied to concrete
newline-terminated files. -/
theorem c8_order_preserved_witness :
    List.Sublist (readlines (remove_links_perform [['a']] ['a', '\n', 'b', '\n']))
      (readlines ['a', '\n', 'b', '\n']) ∧
    List.Sublist (readlines (getInput (process_files litSearchIC (fun _ _ => true)
        ⟨[("a.txt", ['a', '\n'])], [], false⟩) 0))
      (readlines (getInput (⟨[("a.txt", ['a', '\n'])], [], false⟩ : FS) 0)) :=
  ⟨c8_order_preserved_single_rewrite.1 [['a']] ['a', '\n', 'b', '\n']
      (Or.inr ⟨['a', '\n', 'b'], rfl⟩),
    c8_order_preserved_single_rewrite.2.2 litSearchIC (fun _ _ => true)
      ⟨[("a.txt", ['a', '\n'])], [], false⟩ 0 (Or.inr ⟨['a'], rfl⟩)⟩

/-- C9: an applied removal action deletes from the source file every line
whose trimmed content belongs to the action's links set — all duplicate
occurrences at any position, including lines differing from a categorized
line only in surrounding whitespace — and the action's recorded line
number is irrelevant to what `perform` does. -/
theorem c9_removal_deletes_all_matching (links : List Line) (content : List Char)
    (hterm : terminated content) :
    readlines (remove_links_perform links content)
      = (readlines content).filter (fun l => decide (pstrip l ∉ links)) ∧
    (∀ l ∈ readlines (remove_links_perform links content), pstrip l ∉ links) ∧
    (∀ (cat : String) (i n₁ n₂ : Nat) (fs : FS),
        removePerform ⟨cat, i, n₁, links⟩ fs = removePerform ⟨cat, i, n₂, links⟩ fs) := by
  have hwf : ∀ l ∈ keepLines links (readlines content), isNL l :=
    fun l hl => readlines_wf content hterm l ((keepLines_sublist links _).mem hl)
  have h1 : readlines (remove_links_perform links content)
      = keepLines links (readlines content) := by
    unfold remove_links_perform
    exact readlines_joinL _ hwf
  refine ⟨?_, ?_, fun cat i n₁ n₂ fs => rfl⟩
  · rw [h1, keepLines_eq_filter]
  · intro l hl
    rw [h1] at hl
    exact ((mem_keepLines links l _).mp hl).2

/-- C9 witness: a file whose three lines `"a\n"`, `" a \n"`, `"b\n"` are
rewritten with links set `{"a"}`: both occurrences whose trimmed content
is `"a"` — including the whitespace variant — are deleted, only `"b\n"`
remains. -/
theorem c9_removal_deletes_all_matching_witness :
    readlines (remove_links_perform [['a']] ['a', '\n', ' ', 'a', ' ', '\n', 'b', '\n'])
      = (readlines ['a', '\n', ' ', 'a', ' ', '\n', 'b', '\n']).filter
          (fun l => decide (pstrip l ∉ [['a']])) ∧
    (∀ l ∈ readlines (remove_links_perform [['a']]
        ['a', '\n', ' ', 'a', ' ', '\n', 'b', '\n']), pstrip l ∉ [['a']]) ∧
    (∀ (cat : String) (i n₁ n₂ : Nat) (fs : FS),
        removePerform ⟨cat, i, n₁, [['a']]⟩ fs
          = removePerform ⟨cat, i, n₂, [['a']]⟩ fs) :=
  c9_removal_deletes_all_matching [['a']] ['a', '\n', ' ', 'a', ' ', '\n', 'b', '\n']
    (Or.inr ⟨['a', '\n', ' ', 'a', ' ', '\n', 'b'], rfl⟩)

/-! ### Claims C10, C1, C2 -/

theorem outputDirCreated_foldl_copyPerform (bs : List LinkCopyAction) :
    ∀ (fs : FS),
      (bs.foldl (fun fs a => copyPerform a fs) fs).outputDirCreated
        = fs.outputDirCreated := by
  induction bs with
  | nil => intro fs; rfl
  | cons a rest ih => intro fs; rw [List.foldl_cons, ih]; rfl

theorem outputDirCreated_performCopies (as : List LinkCopyAction) (fs : FS) :
    (performCopies as fs).outputDirCreated = fs.outputDirCreated :=
  outputDirCreated_foldl_copyPerform _ fs

theorem runSteps_err (pats : List (String × List String))
    (search : String → Line → Bool) (yes rf cc cr : Bool) (fs : FS) :
    (runSteps pats search yes rf cc cr fs).err = none := rfl

theorem runSteps_noremove_cases (pats : List (String × List String))
    (search : String → Line → Bool) (yes cc cr : Bool) (fs : FS) :
    (runSteps pats search yes false cc cr fs).fs = fs ∨
    (runSteps pats search yes false cc cr fs).fs
      = performCopies (planCopies pats search fs) fs := by
  unfold runSteps
  simp only
  split_ifs <;>
    first
      | exact Or.inl rfl
      | exact Or.inr rfl
      | simp_all

/-- C10: when the remove-moved-lines flag is off no source file is ever
written: the final inputs are byte-identical to the pre-run inputs; the
only filesystem effects are creating the output directory and appending
to destination files (every destination's pre-run content is a prefix of
its final content); and no error is raised. -/
theorem c10_sources_untouched_without_remove_flag
    (pats : List (String × List String)) (search : String → Line → Bool)
    (yes cc cr : Bool) (fs : FS) :
    (runEngine pats search yes false cc cr fs).fs.inputs = fs.inputs ∧
    (∀ c, ∃ suffix, getOutput (runEngine pats search yes false cc cr fs).fs c
        = getOutput fs c ++ suffix) ∧
    (runEngine pats search yes false cc cr fs).fs.outputDirCreated = true ∧
    (runEngine pats search yes false cc cr fs).err = none := by
  unfold runEngine
  refine ⟨?_, ?_, ?_, runSteps_err pats search yes false cc cr _⟩
  · rcases runSteps_noremove_cases pats search yes cc cr
      { fs with outputDirCreated := true } with h | h
    · rw [h]
    · rw [h, inputs_performCopies]
  · intro c
    rcases runSteps_noremove_cases pats search yes cc cr
      { fs with outputDirCreated := true } with h | h
    · exact ⟨[], by rw [h, List.append_nil]; rfl⟩
    · refine ⟨joinL (copiedFor c (planCopies pats search
        ({ fs with outputDirCreated := true }))), ?_⟩
      rw [h]
      exact getOutput_performCopies _ _ c
  · rcases runSteps_noremove_cases pats search yes cc cr
      { fs with outputDirCreated := true } with h | h
    · rw [h]
    · rw [h, outputDirCreated_performCopies]

/-- C1: failing-input evaluation.  With category mapping `{"a": ["a"]}`,
an empty output directory and the single input file `in.txt` containing
the categorizable line `"a\n"` twice, an auto-confirmed run writes the
line twice into `a.txt`: `LINKS_BY_CATEGORY` is never updated after an
append (nor when an action is recorded), so the second occurrence passes
the `line not in links` test and the destination file ends with two
byte-identical lines, violating the claimed invariant. -/
theorem c1_duplicate_line_written_twice :
    readlines (getOutput (runEngine [("a", ["a"])] litSearchIC true false false false
        ⟨[("in.txt", ['a', '\n', 'a', '\n'])], [], false⟩).fs "a")
      = [['a', '\n'], ['a', '\n']] ∧
    ¬ (readlines (getOutput (runEngine [("a", ["a"])] litSearchIC true false false false
        ⟨[("in.txt", ['a', '\n', 'a', '\n'])], [], false⟩).fs "a")).Nodup := by
  decide

/-- C2 counterexample: category mapping `{"a": ["a"]}`, input `in.txt`
containing `"a\n"`, destination `a.txt` pre-existing with `"a \n"`
(trailing space).  One copy action is proposed (`"a\n"` is not
byte-identical to `"a \n"`), and the collaborator declines it (`yes`
false, copy confirmation false).  The removal pass nevertheless matches
the line by trimmed content against the pre-existing destination line and
deletes it: the declined line does not remain in its source file, and a
removal action for it is both proposed and applied in the same run. -/
theorem c2_counterexample :
    (runEngine [("a", ["a"])] litSearchIC false true false true
        ⟨[("in.txt", ['a', '\n'])], [("a", ['a', ' ', '\n'])], false⟩).copyCount = 1 ∧
    (runEngine [("a", ["a"])] litSearchIC false true false true
        ⟨[("in.txt", ['a', '\n'])], [("a", ['a', ' ', '\n'])], false⟩).removeCount = 1 ∧
    getInput (runEngine [("a", ["a"])] litSearchIC false true false true
        ⟨[("in.txt", ['a', '\n'])], [("a", ['a', ' ', '\n'])], false⟩).fs 0 = [] := by
  decide

theorem runSteps_declined_cases (pats : List (String × List String))
    (search : String → Line → Bool) (rf cr : Bool) (fs : FS) :
    (runSteps pats search false rf false cr fs).fs = fs ∨
    (runSteps pats search false rf false cr fs).fs
      = performRemovals (planRemovals fs) fs := by
  unfold runSteps
  simp only
  split_ifs <;>
    first
      | exact Or.inl rfl
      | exact Or.inr rfl
      | simp_all

/-- C2 (amended): when the copy batch is declined (`yes` off and the copy
confirmation answered no), destination files are unchanged, and a line
whose trimmed content does not occur trimmed in any pre-run destination
file — in particular any declined line that does not collide by trimmed
content with existing destination content — remains present in its source
file, with the retained lines in their original relative order.  (A
declined line whose trimmed content does already occur in a destination
file can still be removed by the recompute-based removal pass, as the
counterexample shows.) -/
theorem c2_decline_safety_amended (pats : List (String × List String))
    (search : String → Line → Bool) (rf cr : Bool) (fs : FS) (i : Nat) (l : Line)
    (hterm : terminated (getInput fs i))
    (hl : l ∈ readlines (getInput fs i))
    (hncat : pstrip l ∉ categorizedLines fs) :
    (runEngine pats search false rf false cr fs).fs.outputs = fs.outputs ∧
    l ∈ readlines (getInput (runEngine pats search false rf false cr fs).fs i) ∧
    List.Sublist
      (readlines (getInput (runEngine pats search false rf false cr fs).fs i))
      (readlines (getInput fs i)) := by
  unfold runEngine
  rcases runSteps_declined_cases pats search rf cr
    { fs with outputDirCreated := true } with h | h
  · rw [h]
    exact ⟨rfl, hl, List.Sublist.refl _⟩
  · rw [h]
    refine ⟨?_, ?_, ?_⟩
    · rw [outputs_performRemovals]
    · exact removal_phase_keeps_uncategorized _ i l hterm hl hncat
    · exact removal_phase_sublist _ i hterm

/-- C2 witness: a declined run (copy batch refused, removal pass enabled
and confirmed) on a state where the source line `"b\n"` has no trimmed
match in the destination files: the line survives, the destinations are
unchanged. -/
theorem c2_decline_safety_amended_witness :
    (runEngine [("b", ["b"])] litSearchIC false true false true
        ⟨[("in.txt", ['b', '\n'])], [("a", ['a', '\n'])], false⟩).fs.outputs
      = [("a", ['a', '\n'])] ∧
    ['b', '\n'] ∈ readlines (getInput (runEngine [("b", ["b"])] litSearchIC false true
        false true ⟨[("in.txt", ['b', '\n'])], [("a", ['a', '\n'])], false⟩).fs 0) ∧
    List.Sublist
      (readlines (getInput (runEngine [("b", ["b"])] litSearchIC false true false true
        ⟨[("in.txt", ['b', '\n'])], [("a", ['a', '\n'])], false⟩).fs 0))
      (readlines (getInput (⟨[("in.txt", ['b', '\n'])], [("a", ['a', '\n'])], false⟩ : FS) 0)) :=
  c2_decline_safety_amended [("b", ["b"])] litSearchIC true true
    ⟨[("in.txt", ['b', '\n'])], [("a", ['a', '\n'])], false⟩ 0 ['b', '\n']
    (Or.inr ⟨['b'], rfl⟩) (by decide) (by decide)

end Categorizer
